import Mathlib

/-!
# Vectorised kernels of `prog2_vecintrin/functions.cpp`

A shallow embedding of the four kernels of `functions.cpp` (absolute value, clamped
exponentiation, array sum, in their scalar and their vector form) on top of a model of
the fixed-width predicated vector unit, and the properties proved about them.

Conventions of the embedding.

* `float` values are elements of a type `α` together with an interpretation `FloatOps α`
  of the float operations the kernels use.  `exact` interprets them over `ℚ`.
* `int` values are elements of `ℤ`; `y & 1` is `Int.land y 1` and `y >> 1` is the
  arithmetic shift `y >>> 1`.  Neither operation leaves the 32-bit range, so no
  wrap-around is modelled; theorems that need the 32-bit range assume it.
* An array in memory is a `List`; an access outside of the list is the fault
  `Fault.outOfBounds`.  `values + i` is the pair of the list and the offset `i`.
* A vector register is a function from lane numbers to lane contents of which only the
  lanes below `VECTOR_WIDTH` (the parameter `W`) are ever read or written.
* Registers declared without initialiser start with arbitrary content, passed as a
  parameter.
* A loop is a recursion on a fuel argument; a loop that does not end within its fuel is
  the fault `Fault.outOfFuel`.  Counted loops get the fuel `N.toNat`, which suffices
  as soon as the counter advances; the `while` loop of `clampedExpVector` and of
  `clampedExpSerial` takes its fuel as a parameter.
-/

namespace Vecintrin

/-! ## Faults, float operations -/

/-- The ways a run of a kernel can go wrong in the model. -/
inductive Fault where
  | outOfBounds
  | outOfFuel
  deriving DecidableEq, Repr

deriving instance DecidableEq for Except

/-- Interpretation of the `float` constants and operations used by the kernels. -/
structure FloatOps (α : Type) where
  /-- The literal `0.f`. -/
  zero : α
  /-- The literal `1.f`. -/
  one : α
  /-- The literal `4.18f`. -/
  bound : α
  /-- Float addition `a + b`. -/
  add : α → α → α
  /-- Float subtraction `a - b`. -/
  sub : α → α → α
  /-- Float negation `-a`. -/
  neg : α → α
  /-- Float multiplication `a * b`. -/
  mul : α → α → α
  /-- Float comparison `a < b`. -/
  lt : α → α → Bool
  /-- Float comparison `a > b`. -/
  gt : α → α → Bool

/-- Exact arithmetic: floats read as rational numbers. -/
def exact : FloatOps ℚ where
  zero := 0
  one := 1
  bound := 209 / 50
  add a b := a + b
  sub a b := a - b
  neg a := -a
  mul a b := a * b
  lt a b := decide (a < b)
  gt a b := decide (a > b)

/-! ## The predicated vector unit -/

/-- Modelled from the spec: the register type `__cmu418_vec<T>` of `CMU418intrin.h`, which is
not among the sources; a value holding `VECTOR_WIDTH` scalar lanes. -/
abbrev __cmu418_vec (α : Type) := Nat → α

/-- Modelled from the spec: the mask type `__cmu418_mask` of `CMU418intrin.h`, which is not
among the sources; one boolean per lane. -/
abbrev __cmu418_mask := Nat → Bool

/-- Modelled from the spec: `_cmu418_init_ones(first)` of the absent intrinsics library, the
mask whose first `first` lanes are set ("all-ones-restricted-to-first-k-lanes"; `first = 0`
is all-zeros, `first = VECTOR_WIDTH`, the default argument, is all-ones). -/
def _cmu418_init_ones (W : Nat) (first : Int) : __cmu418_mask :=
  fun k => decide (k < W) && decide ((k : Int) < first)

/-- Modelled from the spec: `_cmu418_mask_not` of the absent intrinsics library, the logical
NOT of a mask on the `VECTOR_WIDTH` lanes. -/
def _cmu418_mask_not (W : Nat) (m : __cmu418_mask) : __cmu418_mask :=
  fun k => decide (k < W) && !m k

/-- Modelled from the spec: `_cmu418_mask_and` of the absent intrinsics library, the logical
AND of two masks. -/
def _cmu418_mask_and (W : Nat) (a b : __cmu418_mask) : __cmu418_mask :=
  fun k => decide (k < W) && (a k && b k)

/-- Modelled from the spec: `_cmu418_cntbits` of the absent intrinsics library, the mask
population count over the `VECTOR_WIDTH` lanes. -/
def _cmu418_cntbits (W : Nat) (m : __cmu418_mask) : Nat :=
  (List.range W).countP m

/-- Modelled from the spec: the broadcast `_cmu418_vset_float(value)` / `_cmu418_vset_int(value)`
of the absent intrinsics library (construct-from-scalar: the constant in every lane). -/
def _cmu418_vset {α : Type} (value : α) : __cmu418_vec α :=
  fun _ => value

/-- Modelled from the spec: the masked `_cmu418_vset_float(dest, value, mask)` of the absent
intrinsics library; lanes outside the mask keep their content. -/
def _cmu418_vset_masked {α : Type} (W : Nat) (dest : __cmu418_vec α) (value : α)
    (mask : __cmu418_mask) : __cmu418_vec α :=
  fun k => if k < W ∧ mask k = true then value else dest k

/-- Every lane selected by `mask` addresses an element of a buffer of `len` elements
when lane 0 is at index `base`. -/
def lanesInBounds (W : Nat) (mask : __cmu418_mask) (base len : Nat) : Bool :=
  (List.range W).all fun k => !mask k || decide (base + k < len)

/-- Modelled from the spec: the masked load `_cmu418_vload_float` / `_cmu418_vload_int` of the
absent intrinsics library; only the lanes of the mask are read from memory, the other lanes
of `dest` keep their content. -/
def _cmu418_vload {α : Type} (W : Nat) (dest : __cmu418_vec α) (src : List α) (base : Nat)
    (mask : __cmu418_mask) : Except Fault (__cmu418_vec α) :=
  if lanesInBounds W mask base src.length then
    .ok fun k => if k < W ∧ mask k = true then src.getD (base + k) (dest k) else dest k
  else .error .outOfBounds

/-- The lanes `0 .. n-1` of `src` selected by `mask`, written to `dest` from index `base` on. -/
def storeLanes {α : Type} (src : __cmu418_vec α) (mask : __cmu418_mask) (base : Nat) :
    Nat → List α → List α
  | 0, dest => dest
  | n + 1, dest =>
    let d := storeLanes src mask base n dest
    if mask n = true then d.set (base + n) (src n) else d

/-- Modelled from the spec: the masked store `_cmu418_vstore_float` of the absent intrinsics
library; only the lanes of the mask are written to memory. -/
def _cmu418_vstore {α : Type} (W : Nat) (dest : List α) (base : Nat) (src : __cmu418_vec α)
    (mask : __cmu418_mask) : Except Fault (List α) :=
  if lanesInBounds W mask base dest.length then .ok (storeLanes src mask base W dest)
  else .error .outOfBounds

/-- Modelled from the spec: a masked elementwise binary operation of the absent intrinsics
library: `dest[k] = mask[k] ? f(a[k], b[k]) : dest[k]` on the `VECTOR_WIDTH` lanes.  With a
mask as destination it is a masked comparison. -/
def maskedOp {β γ : Type} (W : Nat) (f : β → β → γ) (dest : Nat → γ) (a b : Nat → β)
    (mask : __cmu418_mask) : Nat → γ :=
  fun k => if k < W ∧ mask k = true then f (a k) (b k) else dest k

/-- Modelled from the spec: `_cmu418_vadd_float`, masked float addition. -/
def _cmu418_vadd_float {α : Type} (ops : FloatOps α) (W : Nat) (dest a b : __cmu418_vec α)
    (mask : __cmu418_mask) : __cmu418_vec α :=
  maskedOp W ops.add dest a b mask

/-- Modelled from the spec: `_cmu418_vsub_float`, masked float subtraction. -/
def _cmu418_vsub_float {α : Type} (ops : FloatOps α) (W : Nat) (dest a b : __cmu418_vec α)
    (mask : __cmu418_mask) : __cmu418_vec α :=
  maskedOp W ops.sub dest a b mask

/-- Modelled from the spec: `_cmu418_vmult_float`, masked float multiplication. -/
def _cmu418_vmult_float {α : Type} (ops : FloatOps α) (W : Nat) (dest a b : __cmu418_vec α)
    (mask : __cmu418_mask) : __cmu418_vec α :=
  maskedOp W ops.mul dest a b mask

/-- Modelled from the spec: `_cmu418_vlt_float`, masked float comparison `a < b`. -/
def _cmu418_vlt_float {α : Type} (ops : FloatOps α) (W : Nat) (dest : __cmu418_mask)
    (a b : __cmu418_vec α) (mask : __cmu418_mask) : __cmu418_mask :=
  maskedOp W ops.lt dest a b mask

/-- Modelled from the spec: `_cmu418_vgt_float`, masked float comparison `a > b`. -/
def _cmu418_vgt_float {α : Type} (ops : FloatOps α) (W : Nat) (dest : __cmu418_mask)
    (a b : __cmu418_vec α) (mask : __cmu418_mask) : __cmu418_mask :=
  maskedOp W ops.gt dest a b mask

/-- Modelled from the spec: `_cmu418_vbitand_int`, masked bitwise AND of `int` lanes. -/
def _cmu418_vbitand_int (W : Nat) (dest a b : __cmu418_vec Int) (mask : __cmu418_mask) :
    __cmu418_vec Int :=
  maskedOp W Int.land dest a b mask

/-- Modelled from the spec: `_cmu418_vshiftright_int`, masked right shift of `int` lanes. -/
def _cmu418_vshiftright_int (W : Nat) (dest a b : __cmu418_vec Int) (mask : __cmu418_mask) :
    __cmu418_vec Int :=
  maskedOp W (fun x s => x >>> s.toNat) dest a b mask

/-- Modelled from the spec: `_cmu418_veq_int`, masked `int` comparison `a == b`. -/
def _cmu418_veq_int (W : Nat) (dest : __cmu418_mask) (a b : __cmu418_vec Int)
    (mask : __cmu418_mask) : __cmu418_mask :=
  maskedOp W (fun x y => decide (x = y)) dest a b mask

/-- Modelled from the spec: `_cmu418_vgt_int`, masked `int` comparison `a > b`. -/
def _cmu418_vgt_int (W : Nat) (dest : __cmu418_mask) (a b : __cmu418_vec Int)
    (mask : __cmu418_mask) : __cmu418_mask :=
  maskedOp W (fun x y => decide (x > y)) dest a b mask

/-- Modelled from the spec: `_cmu418_hadd_float` of the absent intrinsics library: every
adjacent lane pair `(2k, 2k+1)` is replaced by its sum in both lanes. -/
def _cmu418_hadd_float {α : Type} (ops : FloatOps α) (W : Nat) (dest vec : __cmu418_vec α) :
    __cmu418_vec α :=
  fun j => if j < 2 * (W / 2) then ops.add (vec (2 * (j / 2))) (vec (2 * (j / 2) + 1)) else dest j

/-- Modelled from the spec: `_cmu418_interleave_float` of the absent intrinsics library: the
even-indexed lanes go to the first half, the odd-indexed lanes to the second half. -/
def _cmu418_interleave_float {α : Type} (W : Nat) (dest vec : __cmu418_vec α) :
    __cmu418_vec α :=
  fun k => if k < W then (if k < W / 2 then vec (2 * k) else vec (2 * (k - W / 2) + 1)) else dest k

/-! ## `absSerial` and `absVector` -/

/-- The loop of `absSerial`: `for (int i = 0; i < N; i++)`. -/
def absSerialLoop {α : Type} (ops : FloatOps α) (values : List α) (N : Int) :
    Nat → Nat → List α → Except Fault (List α)
  | 0, i, output => if (i : Int) < N then .error .outOfFuel else .ok output
  | fuel + 1, i, output =>
    if (i : Int) < N then
      match values[i]? with
      | none => .error .outOfBounds
      | some x =>
        if i < output.length then
          absSerialLoop ops values N fuel (i + 1)
            (output.set i (if ops.lt x ops.zero = true then ops.neg x else x))
        else .error .outOfBounds
    else .ok output

/-- The function `absSerial(values, output, N)`; the result is the final content of `output`. -/
def absSerial {α : Type} (ops : FloatOps α) (values output : List α) (N : Int) :
    Except Fault (List α) :=
  absSerialLoop ops values N N.toNat 0 output

/-- The vector registers of `absVector` that are declared without initialiser and not
assigned as a whole before their first use in an iteration. -/
structure AbsRegs (α : Type) where
  x : __cmu418_vec α
  result : __cmu418_vec α

/-- One iteration of the loop of `absVector`, for the chunk starting at index `i`. -/
def absVectorBody {α : Type} (ops : FloatOps α) (W : Nat) (values : List α) (i : Nat)
    (r : AbsRegs α) (output : List α) : Except Fault (AbsRegs α × List α) :=
  let zero : __cmu418_vec α := _cmu418_vset ops.zero
  let maskAll := _cmu418_init_ones W W
  let maskIsNegative := _cmu418_init_ones W 0
  match _cmu418_vload W r.x values i maskAll with
  | .error e => .error e
  | .ok x =>
    let maskIsNegative := _cmu418_vlt_float ops W maskIsNegative x zero maskAll
    let result := _cmu418_vsub_float ops W r.result zero x maskIsNegative
    let maskIsNotNegative := _cmu418_mask_not W maskIsNegative
    match _cmu418_vload W result values i maskIsNotNegative with
    | .error e => .error e
    | .ok result =>
      match _cmu418_vstore W output i result maskAll with
      | .error e => .error e
      | .ok output => .ok (⟨x, result⟩, output)

/-- The loop of `absVector`: `for (int i = 0; i < N; i += VECTOR_WIDTH)`. -/
def absVectorLoop {α : Type} (ops : FloatOps α) (W : Nat) (values : List α) (N : Int) :
    Nat → Nat → AbsRegs α → List α → Except Fault (AbsRegs α × List α)
  | 0, i, r, output => if (i : Int) < N then .error .outOfFuel else .ok (r, output)
  | fuel + 1, i, r, output =>
    if (i : Int) < N then
      match absVectorBody ops W values i r output with
      | .error e => .error e
      | .ok (r, output) => absVectorLoop ops W values N fuel (i + W) r output
    else .ok (r, output)

/-- The function `absVector(values, output, N)` for `VECTOR_WIDTH = W` and initial register
content `r`; the result is the final content of `output`. -/
def absVector {α : Type} (ops : FloatOps α) (W : Nat) (r : AbsRegs α) (values output : List α)
    (N : Int) : Except Fault (List α) :=
  (absVectorLoop ops W values N N.toNat 0 r output).map Prod.snd

/-! ## `clampedExpSerial` and `clampedExpVector` -/

/-- The loop `while (y > 0)` of `clampedExpSerial` on `(result, xpower, y)`. -/
def clampedExpSerialWhile {α : Type} (ops : FloatOps α) : Nat → α → α → Int → Except Fault α
  | 0, result, _, y => if y > 0 then .error .outOfFuel else .ok result
  | fuel + 1, result, xpower, y =>
    if y > 0 then
      clampedExpSerialWhile ops fuel
        (if Int.land y 1 ≠ 0 then ops.mul result xpower else result)
        (ops.mul xpower xpower) (y >>> (1 : Nat))
    else .ok result

/-- The body of the `for` loop of `clampedExpSerial` for one element: the value stored to
`output[i]`. -/
def clampedExpSerialElem {α : Type} (ops : FloatOps α) (fuel : Nat) (x : α) (y : Int) :
    Except Fault α :=
  match clampedExpSerialWhile ops fuel ops.one x y with
  | .error e => .error e
  | .ok result => .ok (if ops.gt result ops.bound = true then ops.bound else result)

/-- The loop of `clampedExpSerial`: `for (int i = 0; i < N; i++)`. -/
def clampedExpSerialLoop {α : Type} (ops : FloatOps α) (whileFuel : Nat) (values : List α)
    (exponents : List Int) (N : Int) : Nat → Nat → List α → Except Fault (List α)
  | 0, i, output => if (i : Int) < N then .error .outOfFuel else .ok output
  | fuel + 1, i, output =>
    if (i : Int) < N then
      match values[i]?, exponents[i]? with
      | some x, some y =>
        match clampedExpSerialElem ops whileFuel x y with
        | .error e => .error e
        | .ok result =>
          if i < output.length then
            clampedExpSerialLoop ops whileFuel values exponents N fuel (i + 1) (output.set i result)
          else .error .outOfBounds
      | _, _ => .error .outOfBounds
    else .ok output

/-- The function `clampedExpSerial(values, exponents, output, N)`; `whileFuel` bounds the
iterations of each `while` loop; the result is the final content of `output`. -/
def clampedExpSerial {α : Type} (ops : FloatOps α) (whileFuel : Nat) (values : List α)
    (exponents : List Int) (output : List α) (N : Int) : Except Fault (List α) :=
  clampedExpSerialLoop ops whileFuel values exponents N N.toNat 0 output

/-- The vector registers and masks of `clampedExpVector` (the constant registers `zero`,
`one` and `bound` apart). -/
structure ExpRegs (α : Type) where
  result : __cmu418_vec α
  x : __cmu418_vec α
  exp : __cmu418_vec Int
  andOne : __cmu418_vec Int
  maskAll : __cmu418_mask
  maskLoop : __cmu418_mask
  maskClamp : __cmu418_mask
  maskAnd : __cmu418_mask
  maskNotAnd : __cmu418_mask

/-- The start of a chunk of `clampedExpVector` (the chunk at index `i`), up to the first
test of the `while` loop. -/
def clampedExpVectorEntry {α : Type} (ops : FloatOps α) (W : Nat) (values : List α)
    (exponents : List Int) (N : Int) (i : Nat) (r : ExpRegs α) : Except Fault (ExpRegs α) :=
  let zero : __cmu418_vec Int := _cmu418_vset 0
  let width : Int := min (W : Int) (N - i)
  let maskAll := _cmu418_init_ones W width
  match _cmu418_vload W r.x values i maskAll with
  | .error e => .error e
  | .ok x =>
    match _cmu418_vload W r.exp exponents i maskAll with
    | .error e => .error e
    | .ok exp =>
      let result : __cmu418_vec α := _cmu418_vset ops.one
      let maskLoop := _cmu418_init_ones W 0
      let maskLoop := _cmu418_vgt_int W maskLoop exp zero maskAll
      .ok { r with result := result, x := x, exp := exp, maskAll := maskAll, maskLoop := maskLoop }

/-- The body of the `while` loop of `clampedExpVector`. -/
def clampedExpVectorBody {α : Type} (ops : FloatOps α) (W : Nat) (r : ExpRegs α) : ExpRegs α :=
  let zero : __cmu418_vec Int := _cmu418_vset 0
  let one : __cmu418_vec Int := _cmu418_vset 1
  let maskNotAnd := _cmu418_init_ones W 0
  let andOne : __cmu418_vec Int := _cmu418_vset 0
  let andOne := _cmu418_vbitand_int W andOne r.exp one r.maskAll
  let maskNotAnd := _cmu418_veq_int W maskNotAnd andOne zero r.maskAll
  let maskAnd := _cmu418_mask_not W maskNotAnd
  let maskAnd := _cmu418_mask_and W maskAnd r.maskAll
  let result := _cmu418_vmult_float ops W r.result r.result r.x maskAnd
  let x := _cmu418_vmult_float ops W r.x r.x r.x r.maskAll
  let exp := _cmu418_vshiftright_int W r.exp r.exp one r.maskAll
  let maskLoop := _cmu418_vgt_int W r.maskLoop exp zero r.maskAll
  { r with result := result, x := x, exp := exp, andOne := andOne, maskLoop := maskLoop,
           maskAnd := maskAnd, maskNotAnd := maskNotAnd }

/-- The loop `while (_cmu418_cntbits(maskLoop))` of `clampedExpVector`. -/
def clampedExpVectorWhile {α : Type} (ops : FloatOps α) (W : Nat) :
    Nat → ExpRegs α → Except Fault (ExpRegs α)
  | 0, r => if _cmu418_cntbits W r.maskLoop ≠ 0 then .error .outOfFuel else .ok r
  | fuel + 1, r =>
    if _cmu418_cntbits W r.maskLoop ≠ 0 then
      clampedExpVectorWhile ops W fuel (clampedExpVectorBody ops W r)
    else .ok r

/-- The end of a chunk of `clampedExpVector`, after the `while` loop: clamp and store. -/
def clampedExpVectorExit {α : Type} (ops : FloatOps α) (W : Nat) (i : Nat) (r : ExpRegs α)
    (output : List α) : Except Fault (ExpRegs α × List α) :=
  let bound : __cmu418_vec α := _cmu418_vset ops.bound
  let maskClamp := _cmu418_vgt_float ops W r.maskClamp r.result bound r.maskAll
  let result := _cmu418_vset_masked W r.result ops.bound maskClamp
  match _cmu418_vstore W output i result r.maskAll with
  | .error e => .error e
  | .ok output => .ok ({ r with result := result, maskClamp := maskClamp }, output)

/-- One iteration of the `for` loop of `clampedExpVector`, for the chunk at index `i`. -/
def clampedExpVectorChunk {α : Type} (ops : FloatOps α) (W : Nat) (whileFuel : Nat)
    (values : List α) (exponents : List Int) (N : Int) (i : Nat) (r : ExpRegs α)
    (output : List α) : Except Fault (ExpRegs α × List α) :=
  match clampedExpVectorEntry ops W values exponents N i r with
  | .error e => .error e
  | .ok r =>
    match clampedExpVectorWhile ops W whileFuel r with
    | .error e => .error e
    | .ok r => clampedExpVectorExit ops W i r output

/-- The loop of `clampedExpVector`: `for (int i = 0; i < N; i += VECTOR_WIDTH)`. -/
def clampedExpVectorLoop {α : Type} (ops : FloatOps α) (W : Nat) (whileFuel : Nat)
    (values : List α) (exponents : List Int) (N : Int) :
    Nat → Nat → ExpRegs α → List α → Except Fault (ExpRegs α × List α)
  | 0, i, r, output => if (i : Int) < N then .error .outOfFuel else .ok (r, output)
  | fuel + 1, i, r, output =>
    if (i : Int) < N then
      match clampedExpVectorChunk ops W whileFuel values exponents N i r output with
      | .error e => .error e
      | .ok (r, output) =>
        clampedExpVectorLoop ops W whileFuel values exponents N fuel (i + W) r output
    else .ok (r, output)

/-- The function `clampedExpVector(values, exponents, output, N)` for `VECTOR_WIDTH = W` and
initial register content `r`, with the registers it ends in; `whileFuel` bounds the
iterations of each `while` loop. -/
def clampedExpVectorRun {α : Type} (ops : FloatOps α) (W : Nat) (whileFuel : Nat)
    (r : ExpRegs α) (values : List α) (exponents : List Int) (output : List α) (N : Int) :
    Except Fault (ExpRegs α × List α) :=
  clampedExpVectorLoop ops W whileFuel values exponents N N.toNat 0 r output

/-- The function `clampedExpVector(values, exponents, output, N)`; the result is the final
content of `output`. -/
def clampedExpVector {α : Type} (ops : FloatOps α) (W : Nat) (whileFuel : Nat)
    (r : ExpRegs α) (values : List α) (exponents : List Int) (output : List α) (N : Int) :
    Except Fault (List α) :=
  (clampedExpVectorRun ops W whileFuel r values exponents output N).map Prod.snd

/-! ## `arraySumSerial` and `arraySumVector` -/

/-- The loop of `arraySumSerial`: `for (int i = 0; i < N; i++) sum += values[i]`. -/
def arraySumSerialLoop {α : Type} (ops : FloatOps α) (values : List α) (N : Int) :
    Nat → Nat → α → Except Fault α
  | 0, i, sum => if (i : Int) < N then .error .outOfFuel else .ok sum
  | fuel + 1, i, sum =>
    if (i : Int) < N then
      match values[i]? with
      | none => .error .outOfBounds
      | some v => arraySumSerialLoop ops values N fuel (i + 1) (ops.add sum v)
    else .ok sum

/-- The function `arraySumSerial(values, N)`. -/
def arraySumSerial {α : Type} (ops : FloatOps α) (values : List α) (N : Int) : Except Fault α :=
  arraySumSerialLoop ops values N N.toNat 0 ops.zero

/-- The first loop of `arraySumVector` on `(temp, result)`:
`for (int i = 0; i < N; i += VECTOR_WIDTH)`. -/
def arraySumVectorLoop {α : Type} (ops : FloatOps α) (W : Nat) (values : List α) (N : Int) :
    Nat → Nat → __cmu418_vec α → __cmu418_vec α →
      Except Fault (__cmu418_vec α × __cmu418_vec α)
  | 0, i, temp, result => if (i : Int) < N then .error .outOfFuel else .ok (temp, result)
  | fuel + 1, i, temp, result =>
    if (i : Int) < N then
      let maskAll := _cmu418_init_ones W W
      match _cmu418_vload W temp values i maskAll with
      | .error e => .error e
      | .ok temp =>
        arraySumVectorLoop ops W values N fuel (i + W) temp
          (_cmu418_vadd_float ops W result result temp maskAll)
    else .ok (temp, result)

/-- The second loop of `arraySumVector` on `(width, result)`: `while (width)`. -/
def arraySumVectorReduce {α : Type} (ops : FloatOps α) (W : Nat) :
    Nat → Nat → __cmu418_vec α → Except Fault (__cmu418_vec α)
  | 0, width, result => if width ≠ 0 then .error .outOfFuel else .ok result
  | fuel + 1, width, result =>
    if width ≠ 0 then
      let result := _cmu418_hadd_float ops W result result
      let result := _cmu418_interleave_float W result result
      arraySumVectorReduce ops W fuel (width / 2) result
    else .ok result

/-- The function `arraySumVector(values, N)` for `VECTOR_WIDTH = W`; `temp` is the initial
content of the register of that name and `scratch` that of the local array `output`, of
`VECTOR_WIDTH` elements.  The second loop halves `width`, so `VECTOR_WIDTH / 2`
iterations suffice for it. -/
def arraySumVector {α : Type} (ops : FloatOps α) (W : Nat) (temp : __cmu418_vec α)
    (scratch : List α) (values : List α) (N : Int) : Except Fault α :=
  let result : __cmu418_vec α := _cmu418_vset ops.zero
  let maskAll := _cmu418_init_ones W W
  match arraySumVectorLoop ops W values N N.toNat 0 temp result with
  | .error e => .error e
  | .ok (_, result) =>
    match arraySumVectorReduce ops W (W / 2) (W / 2) result with
    | .error e => .error e
    | .ok result =>
      match _cmu418_vstore W scratch 0 result maskAll with
      | .error e => .error e
      | .ok output =>
        match output[0]? with
        | none => .error .outOfBounds
        | some v => .ok v

/-! ## Definitions used to state the properties -/

/-- The value `absVector` stores for a lane that holds `v`. -/
def absVectorLane {α : Type} (ops : FloatOps α) (v : α) : α :=
  if ops.lt v ops.zero = true then ops.sub ops.zero v else v

/-- The value `absSerial` stores for the element `v`. -/
def absSerialElem {α : Type} (ops : FloatOps α) (v : α) : α :=
  if ops.lt v ops.zero = true then ops.neg v else v

/-- The number of chunks of `VECTOR_WIDTH = W` elements that cover `N` elements. -/
def chunkCount (W : Nat) (N : Int) : Nat := (N.toNat + W - 1) / W

/-- What one iteration of the `while` loop of `clampedExpVector` does to the
`(result, x, exp)` of an active lane. -/
def expLaneStep {α : Type} (ops : FloatOps α) (t : α × α × Int) : α × α × Int :=
  (if Int.land t.2.2 1 ≠ 0 then ops.mul t.1 t.2.1 else t.1, ops.mul t.2.1 t.2.1, t.2.2 >>> (1 : Nat))

/-- The value `clampedExpVector` stores for a lane loaded with `(v, e)` in a chunk whose
`while` loop runs `n` times. -/
def expVectorLane {α : Type} (ops : FloatOps α) (n : Nat) (v : α) (e : Int) : α :=
  let res := ((expLaneStep ops)^[n] (ops.one, v, e)).1
  if ops.gt res ops.bound = true then ops.bound else res

/-- The loop mask is the set of active lanes whose exponent is positive: the state of
`maskLoop` at every test of the `while` loop. -/
def LoopInv {α : Type} (W : Nat) (r : ExpRegs α) : Prop :=
  ∀ k, r.maskLoop k = (decide (k < W) && r.maskAll k && decide (r.exp k > 0))

/-- One round of the second loop of `arraySumVector`: horizontal add, then interleave. -/
def reduceRound (W : Nat) (v : __cmu418_vec ℚ) : __cmu418_vec ℚ :=
  _cmu418_interleave_float W (_cmu418_hadd_float exact W v v) (_cmu418_hadd_float exact W v v)

/-- After `s` rounds every lane holds the sum of a block of `2 ^ s` lanes of `orig`. -/
def ReduceInv (W : Nat) (orig : __cmu418_vec ℚ) (s : Nat) (v : __cmu418_vec ℚ) : Prop :=
  ∀ k, k < W → v k = ∑ t in Finset.range (2 ^ s), orig ((k * 2 ^ s + t) % W)

/-- A value of the 32-bit two's complement type `int`. -/
def IsInt32 (e : Int) : Prop := -2 ^ 31 ≤ e ∧ e < 2 ^ 31

/-- Register content used for the concrete runs of `absVector`. -/
def absRegsZero : AbsRegs ℚ := ⟨fun _ => 0, fun _ => 0⟩

/-- Register content used for the concrete runs of `clampedExpVector`. -/
def expRegsZero : ExpRegs ℚ :=
  ⟨fun _ => 0, fun _ => 0, fun _ => 0, fun _ => 0, fun _ => false, fun _ => false,
    fun _ => false, fun _ => false, fun _ => false⟩

/-- The bit length of an exponent: 0 for `e ≤ 0`, `⌊log2 e⌋ + 1` for `e > 0`. -/
def bitLength (e : Int) : Nat := if e ≤ 0 then 0 else Nat.log 2 e.toNat + 1

/-- The largest bit length among the exponents of the active lanes of the chunk at index
`i` (the lanes `k < W` with `i + k < N`); 0 when no lane is active. -/
def chunkMaxBitLength (W : Nat) (exponents : List Int) (N : Int) (i : Nat) : Nat :=
  (Finset.range W).sup fun k =>
    if ((i + k : Nat) : Int) < N then bitLength (exponents.getD (i + k) 0) else 0

/-- The bit-set mask as the specification words it, for the registers `r` at the start of
an iteration of the `while` loop: `(exp & 1 != 0) AND` looping-mask. -/
def specBitSetMask {α : Type} (r : ExpRegs α) : __cmu418_mask :=
  fun k => decide (Int.land (r.exp k) 1 ≠ 0) && r.maskLoop k

/-- The mask `maskIsNegative` of a chunk of `absVector` whose load gave `x`: the value of
the variable after `_cmu418_vlt_float(maskIsNegative, x, zero, maskAll)`. -/
def absVectorMaskIsNegative {α : Type} (ops : FloatOps α) (W : Nat) (x : __cmu418_vec α) :
    __cmu418_mask :=
  _cmu418_vlt_float ops W (_cmu418_init_ones W 0) x (_cmu418_vset ops.zero)
    (_cmu418_init_ones W W)

/-- The mask `maskIsNotNegative` of a chunk of `absVector` whose load gave `x`:
`_cmu418_mask_not(maskIsNegative)`. -/
def absVectorMaskIsNotNegative {α : Type} (ops : FloatOps α) (W : Nat) (x : __cmu418_vec α) :
    __cmu418_mask :=
  _cmu418_mask_not W (absVectorMaskIsNegative ops W x)

/-! ## Basic facts about the vector unit -/

theorem lanesInBounds_iff (W : Nat) (mask : __cmu418_mask) (base len : Nat) :
    lanesInBounds W mask base len = true ↔ ∀ k, k < W → mask k = true → base + k < len := by
  simp only [lanesInBounds, List.all_eq_true, List.mem_range, Bool.or_eq_true,
    Bool.not_eq_true', decide_eq_true_eq]
  constructor
  · intro h k hk hm
    rcases h k hk with h1 | h1
    · rw [hm] at h1; cases h1
    · exact h1
  · intro h k hk
    cases hm : mask k
    · exact Or.inl rfl
    · exact Or.inr (h k hk hm)

theorem storeLanes_length {α : Type} (src : __cmu418_vec α) (mask : __cmu418_mask) (base n : Nat)
    (dest : List α) : (storeLanes src mask base n dest).length = dest.length := by
  induction n with
  | zero => rfl
  | succ n ih =>
    simp only [storeLanes]
    split
    · rw [List.length_set, ih]
    · exact ih

theorem storeLanes_getElem? {α : Type} (src : __cmu418_vec α) (mask : __cmu418_mask)
    (base n : Nat) (dest : List α) (j : Nat) :
    (storeLanes src mask base n dest)[j]? =
      if base ≤ j ∧ j - base < n ∧ mask (j - base) = true ∧ j < dest.length
      then some (src (j - base)) else dest[j]? := by
  induction n with
  | zero => simp [storeLanes]
  | succ n ih =>
    simp only [storeLanes]
    by_cases hm : mask n = true
    · rw [if_pos hm, List.getElem?_set, storeLanes_length]
      by_cases hj : base + n = j
      · subst hj
        have e : base + n - base = n := by omega
        by_cases hl : base + n < dest.length
        · simp [e, hm, hl]
        · have : dest[base + n]? = none := List.getElem?_eq_none (by omega)
          simp [hl, this]
      · rw [if_neg hj, ih]
        by_cases hc : base ≤ j ∧ j - base < n ∧ mask (j - base) = true ∧ j < dest.length
        · rw [if_pos hc, if_pos ⟨hc.1, by omega, hc.2.2⟩]
        · rw [if_neg hc, if_neg]
          rintro ⟨h1, h2, h3⟩
          exact hc ⟨h1, by omega, h3⟩
    · rw [if_neg hm, ih]
      by_cases hc : base ≤ j ∧ j - base < n ∧ mask (j - base) = true ∧ j < dest.length
      · rw [if_pos hc, if_pos ⟨hc.1, by omega, hc.2.2⟩]
      · rw [if_neg hc, if_neg]
        rintro ⟨h1, h2, h3⟩
        have : j - base ≠ n := fun e => hm (e ▸ h3.1)
        exact hc ⟨h1, by omega, h3⟩

theorem cntbits_eq_zero_iff (W : Nat) (m : __cmu418_mask) :
    _cmu418_cntbits W m = 0 ↔ ∀ k, k < W → m k = false := by
  simp [_cmu418_cntbits, List.countP_eq_zero]

theorem vload_ok {α : Type} (W : Nat) (dest : __cmu418_vec α) (src : List α) (base : Nat)
    (mask : __cmu418_mask) (h : ∀ k, k < W → mask k = true → base + k < src.length) :
    _cmu418_vload W dest src base mask =
      .ok fun k => if k < W ∧ mask k = true then src.getD (base + k) (dest k) else dest k := by
  simp only [_cmu418_vload]
  rw [if_pos ((lanesInBounds_iff W mask base src.length).2 h)]

theorem vstore_ok {α : Type} (W : Nat) (dest : List α) (base : Nat) (src : __cmu418_vec α)
    (mask : __cmu418_mask) (h : ∀ k, k < W → mask k = true → base + k < dest.length) :
    _cmu418_vstore W dest base src mask = .ok (storeLanes src mask base W dest) := by
  simp only [_cmu418_vstore]
  rw [if_pos ((lanesInBounds_iff W mask base dest.length).2 h)]

/-! ## `absVector` -/

theorem init_ones_full (W k : Nat) : _cmu418_init_ones W W k = decide (k < W) := by
  simp [_cmu418_init_ones]

theorem absVectorBody_ok {α : Type} (ops : FloatOps α) (W : Nat) (values : List α) (i : Nat)
    (r : AbsRegs α) (output : List α) (hv : i + W ≤ values.length)
    (ho : i + W ≤ output.length) :
    ∃ r' out', absVectorBody ops W values i r output = .ok (r', out') ∧
      out'.length = output.length ∧
      ∀ j, out'[j]? = if i ≤ j ∧ j < i + W then (values[j]?).map (absVectorLane ops)
        else output[j]? := by
  simp only [absVectorBody]
  rw [vload_ok W r.x values i _ (fun k hk _ => by omega)]
  simp only []
  rw [vload_ok W _ values i _ (fun k hk _ => by omega)]
  simp only []
  rw [vstore_ok W output i _ _ (fun k hk _ => by omega)]
  refine ⟨_, _, rfl, storeLanes_length _ _ _ _ _, ?_⟩
  intro j
  rw [storeLanes_getElem?]
  by_cases hj : i ≤ j ∧ j < i + W
  · have hk : j - i < W := by omega
    have hjl : j < values.length := by omega
    have e : i + (j - i) = j := by omega
    rw [if_pos ⟨hj.1, hk, by simp [init_ones_full, hk], by omega⟩, if_pos hj]
    have hc : ((j - i : Nat) : Int) < (W : Int) := by omega
    by_cases hn : ops.lt values[j] ops.zero = true
    · simp [_cmu418_vsub_float, _cmu418_vlt_float, _cmu418_mask_not, maskedOp,
        _cmu418_vset, _cmu418_init_ones, e, hk, hc, hjl, absVectorLane, hn]
    · simp [_cmu418_vsub_float, _cmu418_vlt_float, _cmu418_mask_not, maskedOp,
        _cmu418_vset, _cmu418_init_ones, e, hk, hc, hjl, absVectorLane, hn]
  · rw [if_neg hj, if_neg]
    rintro ⟨h1, h2, -⟩
    exact hj ⟨h1, by omega⟩

theorem chunkCount_lt (W : Nat) (hW : 0 < W) (N : Int) (c : Nat) (hc : c < chunkCount W N) :
    ((W * c : Nat) : Int) < N := by
  unfold chunkCount at hc
  have h1 : (c + 1) * W ≤ N.toNat + W - 1 := (Nat.le_div_iff_mul_le hW).1 hc
  have h2 : (c + 1) * W = W * c + W := by ring
  have h3 : W * c < N.toNat := by omega
  omega

theorem chunkCount_le (W : Nat) (hW : 0 < W) (N : Int) :
    N ≤ ((W * chunkCount W N : Nat) : Int) := by
  unfold chunkCount
  have h1 := Nat.div_add_mod (N.toNat + W - 1) W
  have h2 := Nat.mod_lt (N.toNat + W - 1) hW
  omega

theorem chunkCount_of_dvd (W : Nat) (hW : 0 < W) (N : Int) (hN : 0 ≤ N) (hd : (W : Int) ∣ N) :
    ((W * chunkCount W N : Nat) : Int) = N := by
  obtain ⟨q, hq⟩ := hd
  have hq0 : 0 ≤ q := by
    by_contra hneg
    have : (W : Int) * q < 0 := Int.mul_neg_of_pos_of_neg (by omega) (by omega)
    omega
  obtain ⟨q, rfl⟩ := Int.eq_ofNat_of_zero_le hq0
  have hN' : N.toNat = W * q := by
    rw [hq]; exact_mod_cast Int.toNat_natCast (W * q)
  unfold chunkCount
  rw [hN', hq]
  have : (W * q + W - 1) / W = q := by
    apply Nat.div_eq_of_lt_le
    · have : q * W = W * q := Nat.mul_comm q W
      omega
    · have : (q + 1) * W = W * q + W := by ring
      omega
  rw [this]
  push_cast
  rfl

theorem chunkCount_le_toNat (W : Nat) (hW : 0 < W) (N : Int) : chunkCount W N ≤ N.toNat := by
  unfold chunkCount
  generalize N.toNat = n
  apply Nat.le_of_lt_succ
  rw [Nat.div_lt_iff_lt_mul hW, Nat.succ_mul]
  have h2 : n ≤ n * W := Nat.le_mul_of_pos_right _ hW
  omega

theorem absVectorLoop_ok {α : Type} (ops : FloatOps α) (W : Nat) (values : List α)
    (N : Int) (C : Nat) (hC : ∀ c, c < C → ((W * c : Nat) : Int) < N)
    (hN : N ≤ ((W * C : Nat) : Int)) (hv : W * C ≤ values.length) :
    ∀ (fuel c : Nat) (r : AbsRegs α) (output : List α), c ≤ C → C - c ≤ fuel →
      W * C ≤ output.length →
      ∃ r' out', absVectorLoop ops W values N fuel (W * c) r output = .ok (r', out') ∧
        out'.length = output.length ∧
        ∀ j, out'[j]? = if W * c ≤ j ∧ j < W * C then (values[j]?).map (absVectorLane ops)
          else output[j]? := by
  intro fuel
  induction fuel with
  | zero =>
    intro c r output hc hf ho
    have hcC : c = C := by omega
    subst hcC
    refine ⟨r, output, ?_, rfl, ?_⟩
    · simp only [absVectorLoop]
      rw [if_neg (by omega)]
    · intro j
      rw [if_neg (by omega)]
  | succ fuel ih =>
    intro c r output hc hf ho
    by_cases hcC : c = C
    · subst hcC
      refine ⟨r, output, ?_, rfl, ?_⟩
      · simp only [absVectorLoop]
        rw [if_neg (by omega)]
      · intro j
        rw [if_neg (by omega)]
    · have hlt : c < C := by omega
      have hmul : W * c + W ≤ W * C := by
        have : W * (c + 1) ≤ W * C := Nat.mul_le_mul_left W hlt
        rw [Nat.mul_add, Nat.mul_one] at this
        exact this
      obtain ⟨r1, out1, hb, hl1, hg1⟩ :=
        absVectorBody_ok ops W values (W * c) r output (by omega) (by omega)
      obtain ⟨r2, out2, hb2, hl2, hg2⟩ := ih (c + 1) r1 out1 (by omega) (by omega) (by omega)
      refine ⟨r2, out2, ?_, by omega, ?_⟩
      · simp only [absVectorLoop]
        rw [if_pos (hC c hlt), hb]
        simp only []
        rw [← hb2, Nat.mul_add, Nat.mul_one]
      · intro j
        rw [hg2, hg1, Nat.mul_add, Nat.mul_one]
        by_cases h1 : W * c + W ≤ j ∧ j < W * C
        · rw [if_pos h1, if_pos ⟨by omega, h1.2⟩]
        · rw [if_neg h1]
          by_cases h2 : W * c ≤ j ∧ j < W * c + W
          · rw [if_pos h2, if_pos ⟨h2.1, by omega⟩]
          · rw [if_neg h2, if_neg]
            rintro ⟨h3, h4⟩
            by_cases h5 : j < W * c + W
            · exact h2 ⟨h3, h5⟩
            · exact h1 ⟨by omega, h4⟩

theorem absSerialLoop_ok {α : Type} (ops : FloatOps α) (values : List α) (N : Int)
    (hv : N.toNat ≤ values.length) :
    ∀ (fuel i : Nat) (output : List α), (N - i).toNat ≤ fuel → N.toNat ≤ output.length →
      ∃ out', absSerialLoop ops values N fuel i output = .ok out' ∧
        out'.length = output.length ∧
        ∀ j : Nat, out'[j]? = if i ≤ j ∧ (j : Int) < N then (values[j]?).map (absSerialElem ops)
          else output[j]? := by
  intro fuel
  induction fuel with
  | zero =>
    intro i output hf _
    refine ⟨output, ?_, rfl, ?_⟩
    · simp only [absSerialLoop]
      rw [if_neg (by omega)]
    · intro j
      rw [if_neg (by omega)]
  | succ fuel ih =>
    intro i output hf ho
    by_cases hi : (i : Int) < N
    · have hiv : i < values.length := by omega
      have hio : i < output.length := by omega
      obtain ⟨out2, hb2, hl2, hg2⟩ := ih (i + 1)
        (output.set i (absSerialElem ops values[i])) (by omega) (by rw [List.length_set]; exact ho)
      refine ⟨out2, ?_, by rw [hl2, List.length_set], ?_⟩
      · simp only [absSerialLoop]
        rw [if_pos hi, List.getElem?_eq_getElem hiv]
        simp only []
        rw [if_pos hio]
        exact hb2
      · intro j
        rw [hg2, List.getElem?_set]
        by_cases h1 : i + 1 ≤ j ∧ (j : Int) < N
        · rw [if_pos h1, if_pos ⟨by omega, h1.2⟩]
        · rw [if_neg h1]
          by_cases h2 : i = j
          · subst h2
            rw [if_pos rfl, if_pos hio, if_pos ⟨le_refl _, hi⟩, List.getElem?_eq_getElem hiv]
            rfl
          · rw [if_neg h2, if_neg]
            rintro ⟨h3, h4⟩
            exact h1 ⟨by omega, h4⟩
    · refine ⟨output, ?_, rfl, ?_⟩
      · simp only [absSerialLoop]
        rw [if_neg hi]
      · intro j
        rw [if_neg (by omega)]

theorem absVectorLane_exact (v : ℚ) : absVectorLane exact v = |v| := by
  unfold absVectorLane exact
  by_cases h : v < 0
  · simp [h, abs_of_neg h]
  · simp [h, abs_of_nonneg (not_lt.1 h)]

theorem absSerialElem_exact (v : ℚ) : absSerialElem exact v = |v| := by
  unfold absSerialElem exact
  by_cases h : v < 0
  · simp [h, abs_of_neg h]
  · simp [h, abs_of_nonneg (not_lt.1 h)]

theorem absVector_ok {α : Type} (ops : FloatOps α) (W : Nat) (hW : 0 < W) (r : AbsRegs α)
    (values output : List α) (N : Int) (hv : W * chunkCount W N ≤ values.length)
    (ho : W * chunkCount W N ≤ output.length) :
    ∃ out', absVector ops W r values output N = .ok out' ∧ out'.length = output.length ∧
      ∀ j, out'[j]? = if j < W * chunkCount W N then (values[j]?).map (absVectorLane ops)
        else output[j]? := by
  have hfuel : chunkCount W N - 0 ≤ N.toNat := by
    have := chunkCount_le_toNat W hW N
    omega
  obtain ⟨r', out', hb, hl, hg⟩ := absVectorLoop_ok ops W values N (chunkCount W N)
    (chunkCount_lt W hW N) (chunkCount_le W hW N) hv N.toNat 0 r output (Nat.zero_le _) hfuel ho
  refine ⟨out', ?_, hl, ?_⟩
  · unfold absVector
    rw [Nat.mul_zero] at hb
    rw [hb]
    rfl
  · intro j
    rw [hg, Nat.mul_zero]
    simp

/-! ## `clampedExpVector`: one lane -/

theorem int_shiftRight_zero (e : Int) : e >>> (0 : Nat) = e := by
  rw [Int.shiftRight_eq_div_pow]; simp

theorem expLaneStep_iter_exp {α : Type} (ops : FloatOps α) (n : Nat) (t : α × α × Int) :
    ((expLaneStep ops)^[n] t).2.2 = t.2.2 >>> n := by
  induction n generalizing t with
  | zero => simp [int_shiftRight_zero]
  | succ n ih =>
    rw [Function.iterate_succ_apply, ih]
    simp only [expLaneStep]
    rw [← Int.shiftRight_add, Nat.add_comm]

theorem int_land_zero_one : Int.land 0 1 = 0 := by decide

theorem expLaneStep_iter_zero {α : Type} (ops : FloatOps α) (n : Nat) (res x : α) :
    ((expLaneStep ops)^[n] (res, x, 0)).1 = res := by
  induction n generalizing x with
  | zero => rfl
  | succ n ih =>
    rw [Function.iterate_succ_apply]
    have : expLaneStep ops (res, x, 0) = (res, ops.mul x x, 0) := by
      simp [expLaneStep, int_land_zero_one]
    rw [this, ih]

theorem shiftRight_nonneg (e : Int) (n : Nat) (h : 0 ≤ e) : 0 ≤ e >>> n := by
  rw [Int.shiftRight_eq_div_pow]
  exact Int.ediv_nonneg h (by positivity)

theorem shiftRight_nonpos_of_lt (e : Int) (n : Nat) (h : e < 2 ^ n) : e >>> n ≤ 0 := by
  rw [Int.shiftRight_eq_div_pow]
  have : e / ((2 ^ n : Nat) : Int) < 1 := by
    apply Int.ediv_lt_of_lt_mul (by positivity)
    push_cast
    omega
  omega

theorem shiftRight_mono_nonpos (e : Int) (m n : Nat) (hmn : m ≤ n) (h : e >>> m ≤ 0) :
    e >>> n ≤ 0 := by
  obtain ⟨d, rfl⟩ := Nat.exists_eq_add_of_le hmn
  rw [Int.shiftRight_add, Int.shiftRight_eq_div_pow]
  have : (e >>> m) / ((2 ^ d : Nat) : Int) ≤ 0 / ((2 ^ d : Nat) : Int) :=
    Int.ediv_le_ediv (by positivity) h
  simpa using this

/-- The scalar loop on a non-negative exponent computes what `n` iterations of the vector
loop compute in a lane, as soon as `n` iterations exhaust the exponent. -/
theorem clampedExpSerialWhile_eq_lane {α : Type} (ops : FloatOps α) :
    ∀ (n fuel : Nat) (res x : α) (e : Int), 0 ≤ e → e >>> n ≤ 0 → n ≤ fuel →
      clampedExpSerialWhile ops fuel res x e = .ok ((expLaneStep ops)^[n] (res, x, e)).1 := by
  intro n
  induction n with
  | zero =>
    intro fuel res x e h0 h1 _
    have he : ¬ e > 0 := by
      rw [int_shiftRight_zero] at h1; omega
    cases fuel with
    | zero => simp [clampedExpSerialWhile, he]
    | succ f => simp [clampedExpSerialWhile, he]
  | succ n ih =>
    intro fuel res x e h0 h1 hf
    by_cases he : e > 0
    · obtain ⟨f, rfl⟩ : ∃ f, fuel = f + 1 := ⟨fuel - 1, by omega⟩
      rw [Function.iterate_succ_apply]
      simp only [clampedExpSerialWhile]
      rw [if_pos he]
      have h2 : (e >>> (1 : Nat)) >>> n ≤ 0 := by
        rw [← Int.shiftRight_add, Nat.add_comm]; exact h1
      exact ih f _ _ _ (shiftRight_nonneg e 1 h0) h2 (by omega)
    · have e0 : e = 0 := by omega
      subst e0
      rw [expLaneStep_iter_zero]
      cases fuel with
      | zero => simp [clampedExpSerialWhile]
      | succ f => simp [clampedExpSerialWhile]

/-! ## `clampedExpVector`: the `while` loop -/

theorem body_maskAll {α : Type} (ops : FloatOps α) (W : Nat) (r : ExpRegs α) :
    (clampedExpVectorBody ops W r).maskAll = r.maskAll := rfl

theorem body_maskClamp {α : Type} (ops : FloatOps α) (W : Nat) (r : ExpRegs α) :
    (clampedExpVectorBody ops W r).maskClamp = r.maskClamp := rfl

theorem body_maskAnd {α : Type} (ops : FloatOps α) (W : Nat) (r : ExpRegs α) (k : Nat) :
    (clampedExpVectorBody ops W r).maskAnd k =
      (decide (k < W) && r.maskAll k && decide (Int.land (r.exp k) 1 ≠ 0)) := by
  simp only [clampedExpVectorBody, _cmu418_mask_and, _cmu418_mask_not, _cmu418_veq_int,
    _cmu418_vbitand_int, maskedOp, _cmu418_init_ones, _cmu418_vset]
  by_cases hk : k < W
  · cases hm : r.maskAll k
    · simp [hk, hm]
    · simp [hk, hm]
  · simp [hk]

theorem body_active {α : Type} (ops : FloatOps α) (W : Nat) (r : ExpRegs α) (k : Nat)
    (hk : k < W) (hm : r.maskAll k = true) :
    ((clampedExpVectorBody ops W r).result k, (clampedExpVectorBody ops W r).x k,
        (clampedExpVectorBody ops W r).exp k) = expLaneStep ops (r.result k, r.x k, r.exp k) ∧
      (clampedExpVectorBody ops W r).maskLoop k =
        decide ((clampedExpVectorBody ops W r).exp k > 0) := by
  have hA := body_maskAnd ops W r k
  constructor
  · have hres : (clampedExpVectorBody ops W r).result k =
        if (clampedExpVectorBody ops W r).maskAnd k = true then ops.mul (r.result k) (r.x k)
        else r.result k := by
      simp [clampedExpVectorBody, _cmu418_vmult_float, maskedOp, hk]
    rw [hres, hA]
    simp [clampedExpVectorBody, _cmu418_vmult_float, _cmu418_vshiftright_int, maskedOp,
      _cmu418_vset, expLaneStep, hk, hm]
  · simp [clampedExpVectorBody, _cmu418_vgt_int, maskedOp, _cmu418_vset, hk, hm]

theorem body_inactive {α : Type} (ops : FloatOps α) (W : Nat) (r : ExpRegs α) (k : Nat)
    (h : ¬ (k < W ∧ r.maskAll k = true)) :
    (clampedExpVectorBody ops W r).result k = r.result k ∧
      (clampedExpVectorBody ops W r).x k = r.x k ∧
      (clampedExpVectorBody ops W r).exp k = r.exp k ∧
      (clampedExpVectorBody ops W r).maskLoop k = r.maskLoop k := by
  have hA := body_maskAnd ops W r k
  have hA' : (clampedExpVectorBody ops W r).maskAnd k = false := by
    rw [hA]
    by_cases hk : k < W
    · have : r.maskAll k = false := by
        cases hm : r.maskAll k
        · rfl
        · exact absurd ⟨hk, hm⟩ h
      simp [this]
    · simp [hk]
  have hres : (clampedExpVectorBody ops W r).result k =
      if k < W ∧ (clampedExpVectorBody ops W r).maskAnd k = true
      then ops.mul (r.result k) (r.x k) else r.result k := rfl
  refine ⟨?_, ?_, ?_, ?_⟩
  · rw [hres, hA']; simp
  · simp only [clampedExpVectorBody, _cmu418_vmult_float, maskedOp]
    rw [if_neg h]
  · simp only [clampedExpVectorBody, _cmu418_vshiftright_int, maskedOp]
    rw [if_neg h]
  · simp only [clampedExpVectorBody, _cmu418_vgt_int, maskedOp]
    rw [if_neg h]

theorem iter_maskAll {α : Type} (ops : FloatOps α) (W : Nat) (n : Nat) (r : ExpRegs α) :
    ((clampedExpVectorBody ops W)^[n] r).maskAll = r.maskAll := by
  induction n with
  | zero => rfl
  | succ n ih => rw [Function.iterate_succ_apply', body_maskAll, ih]

theorem iter_maskClamp {α : Type} (ops : FloatOps α) (W : Nat) (n : Nat) (r : ExpRegs α) :
    ((clampedExpVectorBody ops W)^[n] r).maskClamp = r.maskClamp := by
  induction n with
  | zero => rfl
  | succ n ih => rw [Function.iterate_succ_apply', body_maskClamp, ih]

theorem iter_active {α : Type} (ops : FloatOps α) (W : Nat) (n : Nat) (r : ExpRegs α)
    (k : Nat) (hk : k < W) (hm : r.maskAll k = true) :
    (((clampedExpVectorBody ops W)^[n] r).result k, ((clampedExpVectorBody ops W)^[n] r).x k,
        ((clampedExpVectorBody ops W)^[n] r).exp k) =
      (expLaneStep ops)^[n] (r.result k, r.x k, r.exp k) := by
  induction n with
  | zero => rfl
  | succ n ih =>
    rw [Function.iterate_succ_apply', Function.iterate_succ_apply', ← ih]
    exact (body_active ops W _ k hk (by rw [iter_maskAll]; exact hm)).1

theorem iter_inactive {α : Type} (ops : FloatOps α) (W : Nat) (n : Nat) (r : ExpRegs α)
    (k : Nat) (h : ¬ (k < W ∧ r.maskAll k = true)) :
    ((clampedExpVectorBody ops W)^[n] r).result k = r.result k ∧
      ((clampedExpVectorBody ops W)^[n] r).x k = r.x k ∧
      ((clampedExpVectorBody ops W)^[n] r).exp k = r.exp k ∧
      ((clampedExpVectorBody ops W)^[n] r).maskLoop k = r.maskLoop k := by
  induction n with
  | zero => exact ⟨rfl, rfl, rfl, rfl⟩
  | succ n ih =>
    rw [Function.iterate_succ_apply']
    obtain ⟨h1, h2, h3, h4⟩ := body_inactive ops W ((clampedExpVectorBody ops W)^[n] r) k
      (by rw [iter_maskAll]; exact h)
    rw [h1, h2, h3, h4]
    exact ih

theorem iter_loopInv {α : Type} (ops : FloatOps α) (W : Nat) (n : Nat) (r : ExpRegs α)
    (h : LoopInv W r) : LoopInv W ((clampedExpVectorBody ops W)^[n] r) := by
  induction n with
  | zero => exact h
  | succ n ih =>
    rw [Function.iterate_succ_apply']
    intro k
    by_cases hk : k < W ∧ ((clampedExpVectorBody ops W)^[n] r).maskAll k = true
    · rw [(body_active ops W _ k hk.1 hk.2).2, body_maskAll]
      simp [hk.1, hk.2]
    · obtain ⟨-, -, h3, h4⟩ := body_inactive ops W _ k hk
      rw [h4, h3, body_maskAll]
      exact ih k

theorem cntbits_loopInv {α : Type} (W : Nat) (r : ExpRegs α) (h : LoopInv W r) :
    _cmu418_cntbits W r.maskLoop = 0 ↔ ∀ k, k < W → r.maskAll k = true → r.exp k ≤ 0 := by
  rw [cntbits_eq_zero_iff]
  constructor
  · intro h0 k hk hm
    have := h0 k hk
    rw [h k] at this
    simp [hk, hm] at this
    exact this
  · intro h0 k hk
    rw [h k]
    cases hm : r.maskAll k
    · simp
    · have := h0 k hk hm
      simp [hk]
      exact this

theorem clampedExpVectorWhile_ok {α : Type} (ops : FloatOps α) (W : Nat) :
    ∀ (fuel n : Nat) (r : ExpRegs α), n ≤ fuel →
      _cmu418_cntbits W ((clampedExpVectorBody ops W)^[n] r).maskLoop = 0 →
      (∀ m, m < n → _cmu418_cntbits W ((clampedExpVectorBody ops W)^[m] r).maskLoop ≠ 0) →
      clampedExpVectorWhile ops W fuel r = .ok ((clampedExpVectorBody ops W)^[n] r) := by
  intro fuel
  induction fuel with
  | zero =>
    intro n r hn h0 _
    have : n = 0 := by omega
    subst this
    simp only [clampedExpVectorWhile]
    rw [if_neg (by simpa using h0)]
    rfl
  | succ fuel ih =>
    intro n r hn h0 hlt
    cases n with
    | zero =>
      simp only [clampedExpVectorWhile]
      rw [if_neg (by simpa using h0)]
      rfl
    | succ n =>
      simp only [clampedExpVectorWhile]
      have h1 : _cmu418_cntbits W r.maskLoop ≠ 0 := hlt 0 (by omega)
      rw [if_pos h1]
      rw [Function.iterate_succ_apply]
      apply ih n _ (by omega)
      · rw [← Function.iterate_succ_apply]; exact h0
      · intro m hm
        rw [← Function.iterate_succ_apply]
        exact hlt (m + 1) (by omega)

/-- The loop ends within `B` iterations when the exponents of the active lanes are below
`2 ^ B`; `n` is the number of iterations it runs. -/
theorem while_terminates {α : Type} (ops : FloatOps α) (W : Nat) (B : Nat) (r : ExpRegs α)
    (hinv : LoopInv W r) (hB : ∀ k, k < W → r.maskAll k = true → r.exp k < 2 ^ B) :
    ∃ n, n ≤ B ∧ _cmu418_cntbits W ((clampedExpVectorBody ops W)^[n] r).maskLoop = 0 ∧
      ∀ m, m < n → _cmu418_cntbits W ((clampedExpVectorBody ops W)^[m] r).maskLoop ≠ 0 := by
  have hP : ∃ n, _cmu418_cntbits W ((clampedExpVectorBody ops W)^[n] r).maskLoop = 0 := by
    refine ⟨B, ?_⟩
    rw [cntbits_loopInv W _ (iter_loopInv ops W B r hinv)]
    intro k hk hm
    rw [iter_maskAll] at hm
    have h1 := congrArg (fun t => t.2.2) (iter_active ops W B r k hk hm)
    simp only [] at h1
    rw [h1, expLaneStep_iter_exp]
    exact shiftRight_nonpos_of_lt _ _ (hB k hk hm)
  refine ⟨Nat.find hP, ?_, Nat.find_spec hP, fun m hm => Nat.find_min hP hm⟩
  apply Nat.find_min' hP
  rw [cntbits_loopInv W _ (iter_loopInv ops W B r hinv)]
  intro k hk hm
  rw [iter_maskAll] at hm
  have h1 := congrArg (fun t => t.2.2) (iter_active ops W B r k hk hm)
  simp only [] at h1
  rw [h1, expLaneStep_iter_exp]
  exact shiftRight_nonpos_of_lt _ _ (hB k hk hm)

/-! ## `clampedExpVector`: one chunk -/

theorem init_ones_width (W : Nat) (N : Int) (i k : Nat) :
    _cmu418_init_ones W (min (W : Int) (N - i)) k = true ↔ k < W ∧ ((i + k : Nat) : Int) < N := by
  simp only [_cmu418_init_ones, Bool.and_eq_true, decide_eq_true_eq]
  constructor
  · rintro ⟨h1, h2⟩
    exact ⟨h1, by omega⟩
  · rintro ⟨h1, h2⟩
    exact ⟨h1, by omega⟩

theorem init_ones_zero (W k : Nat) : _cmu418_init_ones W 0 k = false := by
  simp only [_cmu418_init_ones, Bool.and_eq_false_iff, decide_eq_false_iff_not]
  right
  omega

theorem clampedExpVectorEntry_ok {α : Type} (ops : FloatOps α) (W : Nat) (values : List α)
    (exponents : List Int) (N : Int) (i : Nat) (r : ExpRegs α)
    (hv : N.toNat ≤ values.length) (he : N.toNat ≤ exponents.length) :
    ∃ r1, clampedExpVectorEntry ops W values exponents N i r = .ok r1 ∧
      r1.maskAll = _cmu418_init_ones W (min (W : Int) (N - i)) ∧
      r1.maskClamp = r.maskClamp ∧ LoopInv W r1 ∧
      (∀ k, r1.result k = ops.one) ∧
      (∀ k v, k < W → ((i + k : Nat) : Int) < N → values[i + k]? = some v → r1.x k = v) ∧
      (∀ k e, k < W → ((i + k : Nat) : Int) < N → exponents[i + k]? = some e → r1.exp k = e) := by
  have hbv : ∀ k, k < W → _cmu418_init_ones W (min (W : Int) (N - i)) k = true →
      i + k < values.length := by
    intro k _ hm
    have := ((init_ones_width W N i k).1 hm).2
    omega
  have hbe : ∀ k, k < W → _cmu418_init_ones W (min (W : Int) (N - i)) k = true →
      i + k < exponents.length := by
    intro k _ hm
    have := ((init_ones_width W N i k).1 hm).2
    omega
  simp only [clampedExpVectorEntry]
  rw [vload_ok W r.x values i _ hbv]
  simp only []
  rw [vload_ok W r.exp exponents i _ hbe]
  refine ⟨_, rfl, rfl, rfl, ?_, fun k => rfl, ?_, ?_⟩
  · intro k
    simp only [_cmu418_vgt_int, maskedOp, _cmu418_vset]
    by_cases hk : k < W ∧ _cmu418_init_ones W (min (W : Int) (N - i)) k = true
    · rw [if_pos hk]
      simp [hk.1, hk.2]
    · rw [if_neg hk, init_ones_zero]
      by_cases hk1 : k < W
      · have : _cmu418_init_ones W (min (W : Int) (N - i)) k = false := by
          cases hm : _cmu418_init_ones W (min (W : Int) (N - i)) k
          · rfl
          · exact absurd ⟨hk1, hm⟩ hk
        simp [this]
      · simp [hk1]
  · intro k v hk hN hval
    have hm := (init_ones_width W N i k).2 ⟨hk, hN⟩
    simp only []
    rw [if_pos ⟨hk, hm⟩, List.getD_eq_getElem?_getD, hval]
    rfl
  · intro k e hk hN hval
    have hm := (init_ones_width W N i k).2 ⟨hk, hN⟩
    simp only []
    rw [if_pos ⟨hk, hm⟩, List.getD_eq_getElem?_getD, hval]
    rfl

theorem clampedExpVectorExit_ok {α : Type} (ops : FloatOps α) (W : Nat) (N : Int) (i : Nat)
    (r : ExpRegs α) (output : List α) (ho : N.toNat ≤ output.length)
    (hm : r.maskAll = _cmu418_init_ones W (min (W : Int) (N - i))) :
    ∃ r' out', clampedExpVectorExit ops W i r output = .ok (r', out') ∧
      out'.length = output.length ∧
      (∀ j, ¬ (i ≤ j ∧ j < i + W ∧ (j : Int) < N) → out'[j]? = output[j]?) ∧
      (∀ j, i ≤ j → j < i + W → (j : Int) < N →
        out'[j]? = some (if ops.gt (r.result (j - i)) ops.bound = true then ops.bound
          else r.result (j - i))) := by
  have hb : ∀ k, k < W → r.maskAll k = true → i + k < output.length := by
    intro k _ hk
    rw [hm] at hk
    have := ((init_ones_width W N i k).1 hk).2
    omega
  simp only [clampedExpVectorExit]
  rw [vstore_ok W output i _ _ hb]
  refine ⟨_, _, rfl, storeLanes_length _ _ _ _ _, ?_, ?_⟩
  · intro j hj
    rw [storeLanes_getElem?, if_neg]
    rintro ⟨h1, h2, h3, -⟩
    rw [hm] at h3
    have := ((init_ones_width W N i (j - i)).1 h3).2
    exact hj ⟨h1, by omega, by omega⟩
  · intro j h1 h2 h3
    have hk : j - i < W := by omega
    have hmk : r.maskAll (j - i) = true := by
      rw [hm]
      exact (init_ones_width W N i (j - i)).2 ⟨hk, by omega⟩
    rw [storeLanes_getElem?, if_pos ⟨h1, hk, hmk, by omega⟩]
    simp only [_cmu418_vset_masked, _cmu418_vgt_float, maskedOp, _cmu418_vset]
    by_cases hg : ops.gt (r.result (j - i)) ops.bound = true
    · simp [hk, hmk, hg]
    · simp [hk, hmk, hg]

theorem clampedExpVectorChunk_ok {α : Type} (ops : FloatOps α) (W : Nat) (whileFuel : Nat)
    (values : List α) (exponents : List Int) (N : Int) (i : Nat) (r : ExpRegs α)
    (output : List α) (hv : N.toNat ≤ values.length) (he : N.toNat ≤ exponents.length)
    (ho : N.toNat ≤ output.length) (B : Nat) (hB : ∀ e, e ∈ exponents → e < 2 ^ B)
    (hf : B ≤ whileFuel) :
    ∃ n r' out', clampedExpVectorChunk ops W whileFuel values exponents N i r output
        = .ok (r', out') ∧ n ≤ B ∧
      out'.length = output.length ∧
      (∀ j, ¬ (i ≤ j ∧ j < i + W ∧ (j : Int) < N) → out'[j]? = output[j]?) ∧
      (∀ j v e, i ≤ j → j < i + W → (j : Int) < N → values[j]? = some v →
        exponents[j]? = some e →
        e >>> n ≤ 0 ∧ out'[j]? = some (expVectorLane ops n v e)) ∧
      (∀ m, m < n → ∃ j e, i ≤ j ∧ j < i + W ∧ (j : Int) < N ∧ exponents[j]? = some e ∧
        0 < e >>> m) := by
  obtain ⟨r1, h1, hmask, -, hinv, hres, hx, hexp⟩ :=
    clampedExpVectorEntry_ok ops W values exponents N i r hv he
  have hact : ∀ k, k < W → r1.maskAll k = true →
      ((i + k : Nat) : Int) < N ∧ exponents[i + k]? = some (r1.exp k) := by
    intro k hk hm
    rw [hmask] at hm
    have hN := ((init_ones_width W N i k).1 hm).2
    have hlt : i + k < exponents.length := by omega
    refine ⟨hN, ?_⟩
    rw [hexp k _ hk hN (List.getElem?_eq_getElem hlt)]
    exact List.getElem?_eq_getElem hlt
  have hB' : ∀ k, k < W → r1.maskAll k = true → r1.exp k < 2 ^ B := by
    intro k hk hm
    exact hB _ (List.getElem?_mem (hact k hk hm).2)
  obtain ⟨n, hn, hz, hnz⟩ := while_terminates ops W B r1 hinv hB'
  have hw := clampedExpVectorWhile_ok ops W whileFuel n r1 (by omega) hz hnz
  obtain ⟨r', out', hx', hl, hout, hin⟩ := clampedExpVectorExit_ok ops W N i
    ((clampedExpVectorBody ops W)^[n] r1) output ho (by rw [iter_maskAll]; exact hmask)
  refine ⟨n, r', out', ?_, hn, hl, hout, ?_, ?_⟩
  · simp only [clampedExpVectorChunk]
    rw [h1]
    simp only []
    rw [hw]
    exact hx'
  · intro j v e hj1 hj2 hj3 hval hexpj
    have hk : j - i < W := by omega
    have hij : i + (j - i) = j := by omega
    have hN : ((i + (j - i) : Nat) : Int) < N := by rw [hij]; exact hj3
    have hmk : r1.maskAll (j - i) = true := by
      rw [hmask]
      exact (init_ones_width W N i (j - i)).2 ⟨hk, hN⟩
    have hxk : r1.x (j - i) = v := hx (j - i) v hk hN (by rw [hij]; exact hval)
    have hek : r1.exp (j - i) = e := hexp (j - i) e hk hN (by rw [hij]; exact hexpj)
    have hit := iter_active ops W n r1 (j - i) hk hmk
    rw [hres, hxk, hek] at hit
    constructor
    · have h0 := (cntbits_loopInv W _ (iter_loopInv ops W n r1 hinv)).1 hz (j - i) hk
        (by rw [iter_maskAll]; exact hmk)
      have h2 := congrArg (fun t => t.2.2) hit
      simp only [] at h2
      rw [h2, expLaneStep_iter_exp] at h0
      exact h0
    · rw [hin j hj1 hj2 hj3]
      have h2 := congrArg (fun t => t.1) hit
      simp only [] at h2
      rw [h2]
      rfl
  · intro m hm
    have hne := hnz m hm
    rw [Ne, cntbits_loopInv W _ (iter_loopInv ops W m r1 hinv)] at hne
    push_neg at hne
    obtain ⟨k, hk, hmk, hpos⟩ := hne
    rw [iter_maskAll] at hmk
    obtain ⟨hN, hek⟩ := hact k hk hmk
    refine ⟨i + k, r1.exp k, by omega, by omega, hN, hek, ?_⟩
    have hit := congrArg (fun t => t.2.2) (iter_active ops W m r1 k hk hmk)
    simp only [] at hit
    rw [hit, expLaneStep_iter_exp] at hpos
    exact hpos

/-! ## `clampedExpVector`: all chunks -/

theorem clampedExpVectorLoop_ok {α : Type} (ops : FloatOps α) (W : Nat) (whileFuel : Nat)
    (values : List α) (exponents : List Int) (N : Int) (C : Nat)
    (hC : ∀ c, c < C → ((W * c : Nat) : Int) < N) (hN : N ≤ ((W * C : Nat) : Int))
    (hv : N.toNat ≤ values.length) (he : N.toNat ≤ exponents.length)
    (B : Nat) (hB : ∀ e, e ∈ exponents → e < 2 ^ B) (hf : B ≤ whileFuel) :
    ∀ (fuel c : Nat) (r : ExpRegs α) (output : List α), c ≤ C → C - c ≤ fuel →
      N.toNat ≤ output.length →
      ∃ r' out', clampedExpVectorLoop ops W whileFuel values exponents N fuel (W * c) r output
          = .ok (r', out') ∧
        out'.length = output.length ∧
        (∀ j, ¬ (W * c ≤ j ∧ (j : Int) < N) → out'[j]? = output[j]?) ∧
        (∀ j v e, W * c ≤ j → (j : Int) < N → values[j]? = some v → exponents[j]? = some e →
          ∃ n, n ≤ B ∧ e >>> n ≤ 0 ∧ out'[j]? = some (expVectorLane ops n v e)) := by
  intro fuel
  induction fuel with
  | zero =>
    intro c r output hc hfu ho
    have hcC : c = C := by omega
    subst hcC
    refine ⟨r, output, ?_, rfl, fun _ _ => rfl, ?_⟩
    · simp only [clampedExpVectorLoop]
      rw [if_neg (by omega)]
    · intro j v e h1 h2
      omega
  | succ fuel ih =>
    intro c r output hc hfu ho
    by_cases hcC : c = C
    · subst hcC
      refine ⟨r, output, ?_, rfl, fun _ _ => rfl, ?_⟩
      · simp only [clampedExpVectorLoop]
        rw [if_neg (by omega)]
      · intro j v e h1 h2
        omega
    · have hlt : c < C := by omega
      obtain ⟨n, r1, out1, hb, hn, hl1, hout1, hin1, -⟩ :=
        clampedExpVectorChunk_ok ops W whileFuel values exponents N (W * c) r output hv he ho
          B hB hf
      obtain ⟨r2, out2, hb2, hl2, hout2, hin2⟩ :=
        ih (c + 1) r1 out1 (by omega) (by omega) (by omega)
      rw [Nat.mul_add, Nat.mul_one] at hb2 hout2 hin2
      refine ⟨r2, out2, ?_, by omega, ?_, ?_⟩
      · simp only [clampedExpVectorLoop]
        rw [if_pos (hC c hlt), hb]
        exact hb2
      · intro j hj
        rw [hout2 j (fun h => hj ⟨by omega, h.2⟩), hout1 j (fun h => hj ⟨h.1, h.2.2⟩)]
      · intro j v e h1 h2 hval hexp
        by_cases h3 : j < W * c + W
        · obtain ⟨h4, h5⟩ := hin1 j v e h1 h3 h2 hval hexp
          refine ⟨n, hn, h4, ?_⟩
          rw [hout2 j (fun h => by omega), h5]
        · exact hin2 j v e (by omega) h2 hval hexp

/-- What `clampedExpVector` returns (any interpretation of the float operations, any
exponents below `2 ^ B`, at least `B` iterations allowed for each `while` loop). -/
theorem clampedExpVector_ok {α : Type} (ops : FloatOps α) (W : Nat) (hW : 0 < W)
    (whileFuel : Nat) (r : ExpRegs α) (values : List α) (exponents : List Int)
    (output : List α) (N : Int) (hv : N.toNat ≤ values.length)
    (he : N.toNat ≤ exponents.length) (ho : N.toNat ≤ output.length)
    (B : Nat) (hB : ∀ e, e ∈ exponents → e < 2 ^ B) (hf : B ≤ whileFuel) :
    ∃ out', clampedExpVector ops W whileFuel r values exponents output N = .ok out' ∧
      out'.length = output.length ∧
      (∀ j : Nat, N ≤ (j : Int) → out'[j]? = output[j]?) ∧
      (∀ (j : Nat) v e, (j : Int) < N → values[j]? = some v → exponents[j]? = some e →
        ∃ n, n ≤ B ∧ e >>> n ≤ 0 ∧ out'[j]? = some (expVectorLane ops n v e)) := by
  have hfuel : chunkCount W N - 0 ≤ N.toNat := by
    have := chunkCount_le_toNat W hW N
    omega
  obtain ⟨r', out', hb, hl, hout, hin⟩ := clampedExpVectorLoop_ok ops W whileFuel values
    exponents N (chunkCount W N) (chunkCount_lt W hW N) (chunkCount_le W hW N) hv he B hB hf
    N.toNat 0 r output (Nat.zero_le _) hfuel ho
  rw [Nat.mul_zero] at hb hout hin
  refine ⟨out', ?_, hl, ?_, ?_⟩
  · unfold clampedExpVector clampedExpVectorRun
    rw [hb]
    rfl
  · intro j hj
    exact hout j (fun h => by omega)
  · intro j v e hj hval hexp
    exact hin j v e (Nat.zero_le _) hj hval hexp

/-! ## `clampedExpSerial` -/

theorem clampedExpSerialElem_eq_lane {α : Type} (ops : FloatOps α) (n fuel : Nat) (v : α)
    (e : Int) (h0 : 0 ≤ e) (h1 : e >>> n ≤ 0) (hf : n ≤ fuel) :
    clampedExpSerialElem ops fuel v e = .ok (expVectorLane ops n v e) := by
  simp only [clampedExpSerialElem]
  rw [clampedExpSerialWhile_eq_lane ops n fuel ops.one v e h0 h1 hf]
  rfl

/-- On a non-negative exponent the value a lane stores does not depend on the number of
iterations the chunk runs, once the exponent of the lane is exhausted. -/
theorem expVectorLane_indep {α : Type} (ops : FloatOps α) (n m : Nat) (v : α) (e : Int)
    (h0 : 0 ≤ e) (hn : e >>> n ≤ 0) (hm : e >>> m ≤ 0) :
    expVectorLane ops n v e = expVectorLane ops m v e := by
  have h1 := clampedExpSerialElem_eq_lane ops n (max n m) v e h0 hn (le_max_left _ _)
  have h2 := clampedExpSerialElem_eq_lane ops m (max n m) v e h0 hm (le_max_right _ _)
  rw [h1] at h2
  exact Except.ok.inj h2

theorem clampedExpSerialLoop_ok {α : Type} (ops : FloatOps α) (whileFuel : Nat)
    (values : List α) (exponents : List Int) (N : Int)
    (hv : N.toNat ≤ values.length) (he : N.toNat ≤ exponents.length)
    (B : Nat) (hB : ∀ e, e ∈ exponents → 0 ≤ e ∧ e < 2 ^ B) (hf : B ≤ whileFuel) :
    ∀ (fuel i : Nat) (output : List α), (N - i).toNat ≤ fuel → N.toNat ≤ output.length →
      ∃ out', clampedExpSerialLoop ops whileFuel values exponents N fuel i output = .ok out' ∧
        out'.length = output.length ∧
        (∀ j : Nat, ¬ (i ≤ j ∧ (j : Int) < N) → out'[j]? = output[j]?) ∧
        (∀ (j : Nat) v e, i ≤ j → (j : Int) < N → values[j]? = some v →
          exponents[j]? = some e → out'[j]? = some (expVectorLane ops B v e)) := by
  intro fuel
  induction fuel with
  | zero =>
    intro i output hfu _
    refine ⟨output, ?_, rfl, fun _ _ => rfl, ?_⟩
    · simp only [clampedExpSerialLoop]
      rw [if_neg (by omega)]
    · intro j v e h1 h2
      omega
  | succ fuel ih =>
    intro i output hfu ho
    by_cases hi : (i : Int) < N
    · have hiv : i < values.length := by omega
      have hie : i < exponents.length := by omega
      have hio : i < output.length := by omega
      have hBi := hB _ (List.getElem_mem hie)
      have hel := clampedExpSerialElem_eq_lane ops B whileFuel values[i] exponents[i] hBi.1
        (shiftRight_nonpos_of_lt _ _ hBi.2) hf
      obtain ⟨out2, hb2, hl2, hout2, hin2⟩ := ih (i + 1)
        (output.set i (expVectorLane ops B values[i] exponents[i])) (by omega)
        (by rw [List.length_set]; exact ho)
      refine ⟨out2, ?_, by rw [hl2, List.length_set], ?_, ?_⟩
      · simp only [clampedExpSerialLoop]
        rw [if_pos hi, List.getElem?_eq_getElem hiv, List.getElem?_eq_getElem hie]
        simp only []
        rw [hel]
        simp only []
        rw [if_pos hio]
        exact hb2
      · intro j hj
        rw [hout2 j (fun h => hj ⟨by omega, h.2⟩), List.getElem?_set, if_neg]
        intro hij
        exact hj ⟨by omega, by omega⟩
      · intro j v e h1 h2 hval hexp
        by_cases hij : i = j
        · subst hij
          rw [hout2 i (fun h => by omega), List.getElem?_set, if_pos rfl, if_pos hio]
          rw [List.getElem?_eq_getElem hiv] at hval
          rw [List.getElem?_eq_getElem hie] at hexp
          rw [Option.some.inj hval, Option.some.inj hexp]
        · exact hin2 j v e (by omega) h2 hval hexp
    · refine ⟨output, ?_, rfl, fun _ _ => rfl, ?_⟩
      · simp only [clampedExpSerialLoop]
        rw [if_neg hi]
      · intro j v e h1 h2
        omega

theorem clampedExpSerial_ok {α : Type} (ops : FloatOps α) (whileFuel : Nat)
    (values : List α) (exponents : List Int) (output : List α) (N : Int)
    (hv : N.toNat ≤ values.length) (he : N.toNat ≤ exponents.length)
    (ho : N.toNat ≤ output.length)
    (B : Nat) (hB : ∀ e, e ∈ exponents → 0 ≤ e ∧ e < 2 ^ B) (hf : B ≤ whileFuel) :
    ∃ out', clampedExpSerial ops whileFuel values exponents output N = .ok out' ∧
      out'.length = output.length ∧
      (∀ j : Nat, N ≤ (j : Int) → out'[j]? = output[j]?) ∧
      (∀ (j : Nat) v e, (j : Int) < N → values[j]? = some v → exponents[j]? = some e →
        out'[j]? = some (expVectorLane ops B v e)) := by
  obtain ⟨out', hb, hl, hout, hin⟩ := clampedExpSerialLoop_ok ops whileFuel values exponents N
    hv he B hB hf N.toNat 0 output (by omega) ho
  refine ⟨out', hb, hl, fun j hj => hout j (fun h => by omega), ?_⟩
  intro j v e hj hval hexp
  exact hin j v e (Nat.zero_le _) hj hval hexp

/-! ## Exact arithmetic -/

theorem int_land_one_natCast (m : Nat) : Int.land (m : Int) 1 = ((m % 2 : Nat) : Int) := by
  show ((Nat.land m 1 : Nat) : Int) = _
  congr 1
  exact Nat.and_one_is_mod m

theorem int_shiftRight_one_natCast (m : Nat) : (m : Int) >>> (1 : Nat) = ((m / 2 : Nat) : Int) := by
  rw [Int.shiftRight_eq_div_pow]
  norm_num

theorem expLaneStep_iter_exact (n : Nat) :
    ∀ (res x : ℚ) (m : Nat), (m : Int) >>> n ≤ 0 →
      ((expLaneStep exact)^[n] (res, x, (m : Int))).1 = res * x ^ m := by
  induction n with
  | zero =>
    intro res x m h
    rw [int_shiftRight_zero] at h
    have : m = 0 := by omega
    subst this
    simp
  | succ n ih =>
    intro res x m h
    rw [Function.iterate_succ_apply]
    have hstep : expLaneStep exact (res, x, (m : Int)) =
        (if m % 2 ≠ 0 then res * x else res, x * x, ((m / 2 : Nat) : Int)) := by
      simp only [expLaneStep, int_land_one_natCast, int_shiftRight_one_natCast, exact]
      congr 1
      norm_cast
    rw [hstep, ih]
    · have hm : m = 2 * (m / 2) + m % 2 := (Nat.div_add_mod m 2).symm
      have hx : x ^ m = (x * x) ^ (m / 2) * x ^ (m % 2) := by
        conv_lhs => rw [hm]
        rw [pow_add, pow_mul, pow_two]
      rw [hx]
      rcases Nat.mod_two_eq_zero_or_one m with h2 | h2
      · rw [h2]; simp
      · rw [h2]; simp; ring
    · rw [← int_shiftRight_one_natCast, ← Int.shiftRight_add, Nat.add_comm]
      exact h

theorem expVectorLane_exact (n : Nat) (v : ℚ) (e : Int) (h0 : 0 ≤ e) (h : e >>> n ≤ 0) :
    expVectorLane exact n v e = min (v ^ e.toNat) (209 / 50) := by
  obtain ⟨m, rfl⟩ := Int.eq_ofNat_of_zero_le h0
  simp only [expVectorLane]
  have h1 := expLaneStep_iter_exact n 1 v m h
  have h2 : exact.one = (1 : ℚ) := rfl
  rw [h2, h1, one_mul, Int.toNat_natCast]
  simp only [exact]
  by_cases hg : v ^ m > 209 / 50
  · simp [hg, min_eq_right (le_of_lt hg)]
  · simp [hg, min_eq_left (not_lt.1 hg)]

/-! ## `arraySumVector` -/

theorem reduceRound_apply (W : Nat) (hW : 2 * (W / 2) = W) (v : __cmu418_vec ℚ) (k : Nat)
    (hk : k < W) :
    reduceRound W v k =
      v (2 * (if k < W / 2 then k else k - W / 2)) +
        v (2 * (if k < W / 2 then k else k - W / 2) + 1) := by
  simp only [reduceRound, _cmu418_interleave_float, _cmu418_hadd_float, exact]
  rw [if_pos hk]
  by_cases h : k < W / 2
  · rw [if_pos h, if_pos h, if_pos (by omega)]
    have : 2 * k / 2 = k := by omega
    rw [this]
  · rw [if_neg h, if_neg h, if_pos (by omega)]
    have : (2 * (k - W / 2) + 1) / 2 = k - W / 2 := by omega
    rw [this]

theorem reduceInv_step (W : Nat) (hW : 2 * (W / 2) = W) (orig : __cmu418_vec ℚ) (s : Nat)
    (v : __cmu418_vec ℚ) (h : ReduceInv W orig s v) :
    ReduceInv W orig (s + 1) (reduceRound W v) := by
  intro k hk
  rw [reduceRound_apply W hW v k hk]
  set k' := (if k < W / 2 then k else k - W / 2) with hk'
  have hk2 : 2 * k' + 1 < W := by
    by_cases h1 : k < W / 2
    · simp only [hk', if_pos h1]; omega
    · simp only [hk', if_neg h1]; omega
  rw [h (2 * k') (by omega), h (2 * k' + 1) hk2]
  have hpow : 2 ^ (s + 1) = 2 ^ s + 2 ^ s := by ring
  rw [hpow, Finset.sum_range_add]
  have hmod : ∀ a, (k * (2 ^ s + 2 ^ s) + a) % W = (k' * (2 ^ s + 2 ^ s) + a) % W := by
    intro a
    by_cases h1 : k < W / 2
    · simp only [hk', if_pos h1]
    · simp only [hk', if_neg h1]
      have hk3 : k = (k - W / 2) + W / 2 := by omega
      have e1 : k * (2 ^ s + 2 ^ s) + a
          = ((k - W / 2) * (2 ^ s + 2 ^ s) + a) + W * 2 ^ s := by
        conv_lhs => rw [hk3]
        have : W / 2 * (2 ^ s + 2 ^ s) = W * 2 ^ s := by
          conv_rhs => rw [← hW]
          ring
        rw [Nat.add_mul, this]
        ring
      rw [e1, Nat.add_mul_mod_self_left]
  congr 1
  · apply Finset.sum_congr rfl
    intro t _
    rw [hmod]
    congr 2
    ring
  · apply Finset.sum_congr rfl
    intro t _
    rw [hmod]
    congr 2
    ring

theorem arraySumVectorReduce_ok (W p : Nat) (hW : W = 2 ^ p) (orig : __cmu418_vec ℚ) :
    ∀ (d s fuel : Nat) (v : __cmu418_vec ℚ), s + d = p → ReduceInv W orig s v → d ≤ fuel →
      ∃ v', arraySumVectorReduce exact W fuel (2 ^ d / 2) v = .ok v' ∧ ReduceInv W orig p v' := by
  intro d
  induction d with
  | zero =>
    intro s fuel v hs hinv _
    have : s = p := by omega
    subst this
    refine ⟨v, ?_, hinv⟩
    cases fuel with
    | zero => simp [arraySumVectorReduce]
    | succ f => simp [arraySumVectorReduce]
  | succ d ih =>
    intro s fuel v hs hinv hfu
    obtain ⟨f, rfl⟩ : ∃ f, fuel = f + 1 := ⟨fuel - 1, by omega⟩
    have hwidth : 2 ^ (d + 1) / 2 = 2 ^ d := by
      rw [pow_succ]; omega
    have hne : 2 ^ d ≠ 0 := by positivity
    have hWeven : 2 * (W / 2) = W := by
      have : p = (p - 1) + 1 := by omega
      rw [hW, this, pow_succ]
      omega
    obtain ⟨v', hrun, hinv'⟩ := ih (s + 1) f (reduceRound W v) (by omega)
      (reduceInv_step W hWeven orig s v hinv) (by omega)
    refine ⟨v', ?_, hinv'⟩
    simp only [arraySumVectorReduce]
    rw [hwidth, if_pos hne]
    exact hrun

theorem reduceInv_zero (W : Nat) (v : __cmu418_vec ℚ) : ReduceInv W v 0 v := by
  intro k hk
  simp [Nat.mod_eq_of_lt hk]

theorem reduceInv_final (W p : Nat) (hW : W = 2 ^ p) (orig v : __cmu418_vec ℚ)
    (h : ReduceInv W orig p v) (k : Nat) (hk : k < W) :
    v k = ∑ t in Finset.range W, orig t := by
  rw [h k hk, ← hW]
  apply Finset.sum_congr rfl
  intro t ht
  rw [Nat.add_comm, Nat.add_mul_mod_self_right, Nat.mod_eq_of_lt (Finset.mem_range.1 ht)]

theorem arraySumVectorLoop_ok (W : Nat) (hW : 0 < W) (values : List ℚ) (C : Nat)
    (hv : W * C ≤ values.length) :
    ∀ (fuel c : Nat) (temp result : __cmu418_vec ℚ), c ≤ C → C - c ≤ fuel →
      ∃ temp' result', arraySumVectorLoop exact W values ((W * C : Nat) : Int) fuel (W * c)
          temp result = .ok (temp', result') ∧
        ∀ k, k < W →
          result' k = result k + ∑ c' in Finset.Ico c C, values.getD (W * c' + k) 0 := by
  intro fuel
  induction fuel with
  | zero =>
    intro c temp result hc hfu
    have hcC : c = C := by omega
    subst hcC
    refine ⟨temp, result, ?_, ?_⟩
    · simp only [arraySumVectorLoop]
      rw [if_neg (by omega)]
    · intro k _
      simp
  | succ fuel ih =>
    intro c temp result hc hfu
    by_cases hcC : c = C
    · subst hcC
      refine ⟨temp, result, ?_, ?_⟩
      · simp only [arraySumVectorLoop]
        rw [if_neg (by omega)]
      · intro k _
        simp
    · have hlt : c < C := by omega
      have hmul : W * c + W ≤ W * C := by
        have : W * (c + 1) ≤ W * C := Nat.mul_le_mul_left W hlt
        rw [Nat.mul_add, Nat.mul_one] at this
        exact this
      have hcond : ((W * c : Nat) : Int) < ((W * C : Nat) : Int) := by omega
      obtain ⟨temp', result', hrun, hres⟩ := ih (c + 1)
        (fun k => if k < W ∧ _cmu418_init_ones W W k = true
          then values.getD (W * c + k) (temp k) else temp k)
        (_cmu418_vadd_float exact W result result
          (fun k => if k < W ∧ _cmu418_init_ones W W k = true
            then values.getD (W * c + k) (temp k) else temp k) (_cmu418_init_ones W W))
        (by omega) (by omega)
      refine ⟨temp', result', ?_, ?_⟩
      · simp only [arraySumVectorLoop]
        rw [if_pos hcond, vload_ok W temp values (W * c) _ (fun k hk _ => by omega)]
        simp only []
        rw [Nat.mul_add, Nat.mul_one] at hrun
        exact hrun
      · intro k hk
        rw [hres k hk, Finset.sum_eq_sum_Ico_succ_bot hlt]
        have hm : _cmu418_init_ones W W k = true := by simp [init_ones_full, hk]
        have hin : W * c + k < values.length := by omega
        simp only [_cmu418_vadd_float, maskedOp, exact]
        rw [if_pos ⟨hk, hm⟩, if_pos ⟨hk, hm⟩, List.getD_eq_getElem _ _ hin,
          List.getD_eq_getElem _ _ hin]
        ring

theorem sum_chunks_eq (W : Nat) (g : Nat → ℚ) (C : Nat) :
    ∑ t in Finset.range W, ∑ c in Finset.range C, g (W * c + t)
      = ∑ i in Finset.range (W * C), g i := by
  induction C with
  | zero => simp
  | succ C ih =>
    rw [Nat.mul_add, Nat.mul_one, Finset.sum_range_add, ← ih, ← Finset.sum_add_distrib]
    apply Finset.sum_congr rfl
    intro t _
    rw [Finset.sum_range_succ]

theorem sum_range_getD_eq_take (values : List ℚ) (n : Nat) (hn : n ≤ values.length) :
    ∑ i in Finset.range n, values.getD i 0 = (values.take n).sum := by
  induction n with
  | zero => simp
  | succ n ih =>
    have hlt : n < values.length := by omega
    rw [Finset.sum_range_succ, ih (by omega), List.take_succ, List.sum_append,
      List.getD_eq_getElem _ _ hlt, List.getElem?_eq_getElem hlt]
    simp

theorem arraySumSerialLoop_ok (values : List ℚ) (n : Nat) (hn : n ≤ values.length) :
    ∀ (fuel i : Nat) (sum : ℚ), i ≤ n → n - i ≤ fuel →
      arraySumSerialLoop exact values (n : Int) fuel i sum
        = .ok (sum + ∑ j in Finset.Ico i n, values.getD j 0) := by
  intro fuel
  induction fuel with
  | zero =>
    intro i sum hi hfu
    have : i = n := by omega
    subst this
    simp [arraySumSerialLoop]
  | succ fuel ih =>
    intro i sum hi hfu
    by_cases hin : i = n
    · subst hin
      simp [arraySumSerialLoop]
    · have hlt : i < n := by omega
      have hil : i < values.length := by omega
      simp only [arraySumSerialLoop]
      rw [if_pos (by omega), List.getElem?_eq_getElem hil]
      simp only []
      rw [ih (i + 1) _ (by omega) (by omega), Finset.sum_eq_sum_Ico_succ_bot hlt,
        List.getD_eq_getElem _ _ hil]
      simp only [exact]
      rw [add_assoc]

/-! ## The claims -/

/-- C1: for every `N`, every array of bases and every array of non-negative 32-bit
exponents, `clampedExpVector` (exact arithmetic, any vector width `W > 0`, any initial
register content, at least 31 iterations allowed for each `while` loop) returns normally
and has written `output[i] = min (values[i] ^ exponents[i]) 4.18` for every `0 ≤ i < N`
(with `0 ^ 0 = 1`); `N` need not be a multiple of `W`. -/
theorem clampedExpVector_min_pow (W : Nat) (hW : 0 < W) (whileFuel : Nat) (hf : 31 ≤ whileFuel)
    (r : ExpRegs ℚ) (values : List ℚ) (exponents : List Int) (output : List ℚ) (N : Int)
    (hv : N.toNat ≤ values.length) (he : N.toNat ≤ exponents.length)
    (ho : N.toNat ≤ output.length) (hexp : ∀ e, e ∈ exponents → 0 ≤ e ∧ IsInt32 e) :
    ∃ out', clampedExpVector exact W whileFuel r values exponents output N = .ok out' ∧
      out'.length = output.length ∧
      ∀ (i : Nat) (v : ℚ) (e : Int), (i : Int) < N → values[i]? = some v →
        exponents[i]? = some e → out'[i]? = some (min (v ^ e.toNat) (209 / 50)) := by
  obtain ⟨out', hrun, hl, -, hin⟩ := clampedExpVector_ok exact W hW whileFuel r values exponents
    output N hv he ho 31 (fun e h => (hexp e h).2.2) hf
  refine ⟨out', hrun, hl, ?_⟩
  intro i v e hi hval hexpi
  obtain ⟨n, -, hn, hout⟩ := hin i v e hi hval hexpi
  rw [hout, expVectorLane_exact n v e (hexp e (List.getElem?_mem hexpi)).1 hn]

/-- C1 at `values = [2.0]`, `exponents = [10]`, `N = 1`, `W = 4`: the hypotheses hold there. -/
theorem clampedExpVector_min_pow_witness :
    (∀ e, e ∈ [(10 : Int)] → 0 ≤ e ∧ IsInt32 e) ∧
    ∃ out', clampedExpVector exact 4 32 expRegsZero [2] [10] [0] 1 = .ok out' ∧
      out'.length = [(0 : ℚ)].length ∧
      ∀ (i : Nat) (v : ℚ) (e : Int), (i : Int) < 1 → [(2 : ℚ)][i]? = some v →
        [(10 : Int)][i]? = some e → out'[i]? = some (min (v ^ e.toNat) (209 / 50)) :=
  ⟨by simp [IsInt32],
   clampedExpVector_min_pow 4 (by decide) 32 (by decide) expRegsZero [2] [10] [0] 1
    (by decide) (by decide) (by decide) (by simp [IsInt32])⟩

/-- The scenario of the specification: `values = [2.0]`, `exponents = [10]`, `N = 1` gives
`output = [4.18]`. -/
theorem clampedExpVector_scenario :
    clampedExpVector exact 4 32 expRegsZero [2] [10] [0] 1 = .ok [209 / 50] := by
  decide!

/-- C2: for every `N`, every array of values and every array of non-negative 32-bit
exponents, `clampedExpVector` and `clampedExpSerial` return normally with the same content
of `output`, whatever the interpretation `ops` of the float multiplication and comparison
is (`N` need not be a multiple of `W`; at least 31 iterations are allowed for each `while`
loop). -/
theorem clampedExpVector_eq_serial {α : Type} (ops : FloatOps α) (W : Nat) (hW : 0 < W)
    (whileFuel : Nat) (hf : 31 ≤ whileFuel) (r : ExpRegs α) (values : List α)
    (exponents : List Int) (output : List α) (N : Int)
    (hv : N.toNat ≤ values.length) (he : N.toNat ≤ exponents.length)
    (ho : N.toNat ≤ output.length) (hexp : ∀ e, e ∈ exponents → 0 ≤ e ∧ IsInt32 e) :
    ∃ out', clampedExpVector ops W whileFuel r values exponents output N = .ok out' ∧
      clampedExpSerial ops whileFuel values exponents output N = .ok out' := by
  obtain ⟨outV, hrunV, hlV, houtV, hinV⟩ := clampedExpVector_ok ops W hW whileFuel r values
    exponents output N hv he ho 31 (fun e h => (hexp e h).2.2) hf
  obtain ⟨outS, hrunS, hlS, houtS, hinS⟩ := clampedExpSerial_ok ops whileFuel values
    exponents output N hv he ho 31 (fun e h => ⟨(hexp e h).1, (hexp e h).2.2⟩) hf
  have heq : outV = outS := by
    apply List.ext_getElem?
    intro j
    by_cases hj : (j : Int) < N
    · have hjv : j < values.length := by omega
      have hje : j < exponents.length := by omega
      obtain ⟨n, -, hn, hV⟩ := hinV j _ _ hj (List.getElem?_eq_getElem hjv)
        (List.getElem?_eq_getElem hje)
      have h0 := (hexp _ (List.getElem_mem hje))
      rw [hV, hinS j _ _ hj (List.getElem?_eq_getElem hjv) (List.getElem?_eq_getElem hje)]
      rw [expVectorLane_indep ops n 31 _ _ h0.1 hn (shiftRight_nonpos_of_lt _ _ h0.2.2)]
    · rw [houtV j (by omega), houtS j (by omega)]
  exact ⟨outV, hrunV, heq ▸ hrunS⟩

/-- C2 at five elements with `W = 4` (a full chunk and a partial one). -/
theorem clampedExpVector_eq_serial_witness :
    ∃ out', clampedExpVector exact 4 32 expRegsZero [2, 3, 1 / 2, 5, 7] [10, 0, 3, 1, 2]
        [0, 0, 0, 0, 0] 5 = .ok out' ∧
      clampedExpSerial exact 32 [2, 3, 1 / 2, 5, 7] [10, 0, 3, 1, 2] [0, 0, 0, 0, 0] 5 = .ok out' :=
  clampedExpVector_eq_serial exact 4 (by decide) 32 (by decide) expRegsZero _ _ _ 5
    (by decide) (by decide) (by decide) (by simp [IsInt32])

/-- C3 as stated fails: with `W = 4`, `N = 1` and arrays of exactly `N` elements `absVector`
reads `values[1]`, outside of the array, while `absSerial` returns `[3]`. -/
theorem absVector_exact_length_faults :
    absVector exact 4 absRegsZero [-3] [0] 1 = .error .outOfBounds ∧
      absSerial exact [-3] [0] 1 = .ok [3] := by
  constructor
  · rfl
  · decide!

/-- C3, amended: for every `N` and all arrays `values` and `output` of at least
`W * chunkCount W N` elements (`N` rounded up to a multiple of `W`; that is `N` elements when
`N ≥ 0` is a multiple of `W`), `absVector` and `absSerial` return normally and both have
written `output[i] = |values[i]|` for every `0 ≤ i < N` (exact arithmetic). -/
theorem absVector_abs_of_padded (W : Nat) (hW : 0 < W) (r : AbsRegs ℚ) (values output : List ℚ)
    (N : Int) (hv : W * chunkCount W N ≤ values.length)
    (ho : W * chunkCount W N ≤ output.length) :
    ∃ outV outS, absVector exact W r values output N = .ok outV ∧
      absSerial exact values output N = .ok outS ∧
      ∀ (i : Nat) (v : ℚ), (i : Int) < N → values[i]? = some v →
        outV[i]? = some |v| ∧ outS[i]? = some |v| := by
  have hN := chunkCount_le W hW N
  obtain ⟨outV, hrunV, -, hgV⟩ := absVector_ok exact W hW r values output N hv ho
  obtain ⟨outS, hrunS, -, hgS⟩ := absSerialLoop_ok exact values N (by omega) N.toNat 0 output
    (by omega) (by omega)
  refine ⟨outV, outS, hrunV, hrunS, ?_⟩
  intro i v hi hval
  constructor
  · rw [hgV, if_pos (by omega), hval]
    simp [absVectorLane_exact]
  · rw [hgS, if_pos ⟨Nat.zero_le _, hi⟩, hval]
    simp [absSerialElem_exact]

/-- C3, amended, at `values = [-3.0, 2.0, 0.0, -0.5]`, `N = 4`, `W = 4`. -/
theorem absVector_abs_of_padded_witness :
    ∃ outV outS, absVector exact 4 absRegsZero [-3, 2, 0, -1 / 2] [0, 0, 0, 0] 4 = .ok outV ∧
      absSerial exact [-3, 2, 0, -1 / 2] [0, 0, 0, 0] 4 = .ok outS ∧
      ∀ (i : Nat) (v : ℚ), (i : Int) < 4 → [-3, 2, 0, -1 / 2][i]? = some v →
        outV[i]? = some |v| ∧ outS[i]? = some |v| :=
  absVector_abs_of_padded 4 (by decide) absRegsZero [-3, 2, 0, -1 / 2] [0, 0, 0, 0] 4
    (by decide) (by decide)

/-- The scenario of the specification: `values = [-3.0, 2.0, 0.0, -0.5]`, `N = 4` gives
`[3.0, 2.0, 0.0, 0.5]`. -/
theorem absVector_scenario :
    absVector exact 4 absRegsZero [-3, 2, 0, -1 / 2] [0, 0, 0, 0] 4 = .ok [3, 2, 0, 1 / 2] := by
  decide!

/-- C4: for every vector width `W = 2 ^ p`, every `N ≥ 0` that is a multiple of `W` and every
array of at least `N` values, `arraySumVector` returns the sum of the first `N` elements, and
so does `arraySumSerial` (exact addition; `temp` is the initial content of the register of
that name and `scratch` that of the local array of `W` elements). -/
theorem arraySumVector_eq_sum (W p : Nat) (hW : W = 2 ^ p) (temp : __cmu418_vec ℚ)
    (scratch values : List ℚ) (N : Int) (hN : 0 ≤ N) (hd : (W : Int) ∣ N)
    (hs : scratch.length = W) (hv : N.toNat ≤ values.length) :
    arraySumVector exact W temp scratch values N = .ok ((values.take N.toNat).sum) ∧
      arraySumSerial exact values N = .ok ((values.take N.toNat).sum) := by
  have hWpos : 0 < W := by rw [hW]; positivity
  have hC := chunkCount_of_dvd W hWpos N hN hd
  set C := chunkCount W N with hCdef
  have hNn : N.toNat = W * C := by omega
  have hNC : N = ((W * C : Nat) : Int) := by omega
  constructor
  · obtain ⟨temp', result', hrun, hres⟩ := arraySumVectorLoop_ok W hWpos values C (by omega)
      (W * C) 0 temp (_cmu418_vset exact.zero) (Nat.zero_le _)
      (by
        have : C ≤ W * C := Nat.le_mul_of_pos_left _ hWpos
        omega)
    have hfuel : p ≤ W / 2 := by
      rcases Nat.eq_zero_or_pos p with h0 | h0
      · omega
      · have h1 : p = (p - 1) + 1 := by omega
        have h2 : W / 2 = 2 ^ (p - 1) := by
          rw [hW, h1, pow_succ]; simp
        have h3 := Nat.lt_two_pow (p - 1)
        omega
    obtain ⟨v', hred, hinv'⟩ := arraySumVectorReduce_ok W p hW result' p 0 (W / 2) result'
      (by omega) (reduceInv_zero W result') hfuel
    have hw2 : W / 2 = 2 ^ p / 2 := by rw [hW]
    unfold arraySumVector
    simp only []
    rw [hNn, Nat.mul_zero] at *
    rw [hNC, hrun]
    simp only []
    nth_rewrite 2 [hw2]
    rw [hred]
    simp only []
    rw [vstore_ok W scratch 0 v' _ (fun k hk _ => by omega)]
    simp only []
    rw [storeLanes_getElem?, if_pos ⟨le_refl _, by omega, by simp [init_ones_full, hWpos],
      by omega⟩]
    simp only []
    rw [show (0 : Nat) - 0 = 0 from rfl, reduceInv_final W p hW result' v' hinv' 0 hWpos]
    congr 1
    rw [← sum_range_getD_eq_take values (W * C) (by omega), ← sum_chunks_eq]
    apply Finset.sum_congr rfl
    intro t ht
    rw [hres t (Finset.mem_range.1 ht), Nat.Ico_zero_eq_range]
    simp [_cmu418_vset, exact]
  · unfold arraySumSerial
    rw [hNn]
    nth_rewrite 1 [hNC]
    rw [arraySumSerialLoop_ok values (W * C) (by omega) (W * C) 0 _ (Nat.zero_le _)
      (by omega), Nat.Ico_zero_eq_range, sum_range_getD_eq_take values (W * C) (by omega)]
    simp [exact]

/-- C4 at `values = [1, 1, 1, 1, 1, 1, 1, 1]`, `N = 8`, `W = 4`: the sum is 8. -/
theorem arraySumVector_eq_sum_witness :
    arraySumVector exact 4 (fun _ => 0) [0, 0, 0, 0] [1, 1, 1, 1, 1, 1, 1, 1] 8 = .ok 8 ∧
      arraySumSerial exact [1, 1, 1, 1, 1, 1, 1, 1] 8 = .ok 8 := by
  have h := arraySumVector_eq_sum 4 2 (by decide) (fun _ => 0) [0, 0, 0, 0]
    [1, 1, 1, 1, 1, 1, 1, 1] 8 (by decide) (by decide) rfl (by decide)
  have e : (List.take (Int.toNat 8) [(1 : ℚ), 1, 1, 1, 1, 1, 1, 1]).sum = 8 := by
    have e8 : Int.toNat 8 = 8 := rfl
    rw [e8]
    norm_num
  rw [e] at h
  exact h

/-- The scenarios of the specification for the sum: `N = 0` gives `0.0`, and `N = W` with
all ones gives `W`. -/
theorem arraySumVector_scenarios :
    arraySumVector exact 4 (fun _ => 0) [0, 0, 0, 0] [] 0 = .ok 0 ∧
      arraySumVector exact 4 (fun _ => 0) [0, 0, 0, 0] [1, 1, 1, 1] 4 = .ok 4 := by
  constructor <;> decide!

/-- C5 as stated fails: with `W = 4`, `N = 1` and buffers of four elements `absVector`
overwrites `output[1]`, `output[2]` and `output[3]` (with the absolute values of
`values[1 .. 3]`, which it has read). -/
theorem absVector_writes_past_N :
    absVector exact 4 absRegsZero [-3, -1, -1, -1] [9, 9, 9, 9] 1 = .ok [3, 1, 1, 1] := by
  decide!

/-- C5, amended: the masks of every chunk of `absVector` cover all `W` lanes, so the indices
it reads and writes are those below `W * chunkCount W N` (`N` rounded up to a multiple of
`W`): with buffers of at least that many elements no access is out of bounds, and every
element of `output` at an index `≥ W * chunkCount W N` is unchanged after the call (any
interpretation of the float operations). -/
theorem absVector_frame {α : Type} (ops : FloatOps α) (W : Nat) (hW : 0 < W) (r : AbsRegs α)
    (values output : List α) (N : Int) (hv : W * chunkCount W N ≤ values.length)
    (ho : W * chunkCount W N ≤ output.length) :
    ∃ out', absVector ops W r values output N = .ok out' ∧ out'.length = output.length ∧
      ∀ j, W * chunkCount W N ≤ j → out'[j]? = output[j]? := by
  obtain ⟨out', hrun, hl, hg⟩ := absVector_ok ops W hW r values output N hv ho
  refine ⟨out', hrun, hl, ?_⟩
  intro j hj
  rw [hg, if_neg (by omega)]

/-- C5, amended, at `N = 3`, `W = 4` and buffers of six elements. -/
theorem absVector_frame_witness :
    ∃ out', absVector exact 4 absRegsZero [-3, 2, 0, -1 / 2, 7, 7] [0, 0, 0, 0, 9, 9] 3
        = .ok out' ∧
      out'.length = [(0 : ℚ), 0, 0, 0, 9, 9].length ∧
      ∀ j, 4 * chunkCount 4 3 ≤ j → out'[j]? = [(0 : ℚ), 0, 0, 0, 9, 9][j]? :=
  absVector_frame exact 4 (by decide) absRegsZero _ _ 3 (by decide) (by decide)

/-- C6: for every `N` (a multiple of `W` or not) and all buffers of at least `N` elements,
in particular of exactly `N` elements, `clampedExpVector` makes no access out of bounds (it
returns normally, for every interpretation of the float operations and all 32-bit
exponents), and every element of `output` at an index `≥ N` is unchanged after the call. -/
theorem clampedExpVector_in_bounds {α : Type} (ops : FloatOps α) (W : Nat) (hW : 0 < W)
    (whileFuel : Nat) (hf : 31 ≤ whileFuel) (r : ExpRegs α) (values : List α)
    (exponents : List Int) (output : List α) (N : Int)
    (hv : N.toNat ≤ values.length) (he : N.toNat ≤ exponents.length)
    (ho : N.toNat ≤ output.length) (hexp : ∀ e, e ∈ exponents → IsInt32 e) :
    ∃ out', clampedExpVector ops W whileFuel r values exponents output N = .ok out' ∧
      out'.length = output.length ∧
      ∀ j : Nat, N ≤ (j : Int) → out'[j]? = output[j]? := by
  obtain ⟨out', hrun, hl, hout, -⟩ := clampedExpVector_ok ops W hW whileFuel r values exponents
    output N hv he ho 31 (fun e h => (hexp e h).2) hf
  exact ⟨out', hrun, hl, hout⟩

/-- C6 at `N = 5`, `W = 4`, inputs of exactly five elements and an output of seven. -/
theorem clampedExpVector_in_bounds_witness :
    ∃ out', clampedExpVector exact 4 32 expRegsZero [2, 3, 1 / 2, 5, 7] [10, 0, 3, -1, 2]
        [0, 0, 0, 0, 0, 9, 9] 5 = .ok out' ∧
      out'.length = [(0 : ℚ), 0, 0, 0, 0, 9, 9].length ∧
      ∀ j : Nat, (5 : Int) ≤ (j : Int) → out'[j]? = [(0 : ℚ), 0, 0, 0, 0, 9, 9][j]? :=
  clampedExpVector_in_bounds exact 4 (by decide) 32 (by decide) expRegsZero _ _ _ 5
    (by decide) (by decide) (by decide) (by simp [IsInt32])

/-- C7 as stated fails: with `values[0] = 2` and `exponents[0] = -1` in both runs,
`output[0]` is `1` when the other lane of the chunk has exponent `0` and `2` when it has
exponent `1`. -/
theorem clampedExpVector_negative_exponent_depends_on_chunk :
    clampedExpVector exact 4 32 expRegsZero [2, 2] [-1, 0] [0, 0] 2 = .ok [1, 1] ∧
      clampedExpVector exact 4 32 expRegsZero [2, 2] [-1, 1] [0, 0] 2 = .ok [2, 2] := by
  constructor <;> decide!

/-- C7, amended: for every `N`, every index `i < N` with `exponents[i] ≥ 0` and every two
runs of `clampedExpVector` whose inputs agree at index `i` (the other elements arbitrary
bases and arbitrary 32-bit exponents, also negative ones; the initial registers and the
initial outputs arbitrary as well), the two runs produce the same `output[i]`, for every
interpretation of the float operations. -/
theorem clampedExpVector_element_independent {α : Type} (ops : FloatOps α) (W : Nat)
    (hW : 0 < W) (whileFuel : Nat) (hf : 31 ≤ whileFuel) (r r' : ExpRegs α)
    (values values' : List α) (exponents exponents' : List Int) (output output' : List α)
    (N : Int)
    (hv : N.toNat ≤ values.length) (he : N.toNat ≤ exponents.length)
    (ho : N.toNat ≤ output.length)
    (hv' : N.toNat ≤ values'.length) (he' : N.toNat ≤ exponents'.length)
    (ho' : N.toNat ≤ output'.length)
    (hexp : ∀ e, e ∈ exponents → IsInt32 e) (hexp' : ∀ e, e ∈ exponents' → IsInt32 e)
    (i : Nat) (hi : (i : Int) < N) (hvi : values[i]? = values'[i]?)
    (hei : exponents[i]? = exponents'[i]?) (hnn : ∀ e, exponents[i]? = some e → 0 ≤ e) :
    ∃ out out', clampedExpVector ops W whileFuel r values exponents output N = .ok out ∧
      clampedExpVector ops W whileFuel r' values' exponents' output' N = .ok out' ∧
      out[i]? = out'[i]? := by
  obtain ⟨out, hrun, -, -, hin⟩ := clampedExpVector_ok ops W hW whileFuel r values exponents
    output N hv he ho 31 (fun e h => (hexp e h).2) hf
  obtain ⟨out', hrun', -, -, hin'⟩ := clampedExpVector_ok ops W hW whileFuel r' values'
    exponents' output' N hv' he' ho' 31 (fun e h => (hexp' e h).2) hf
  refine ⟨out, out', hrun, hrun', ?_⟩
  have hiv : i < values.length := by omega
  have hie : i < exponents.length := by omega
  have h1 : values[i]? = some values[i] := List.getElem?_eq_getElem hiv
  have h2 : exponents[i]? = some exponents[i] := List.getElem?_eq_getElem hie
  obtain ⟨n, -, hn, hV⟩ := hin i _ _ hi h1 h2
  obtain ⟨n', -, hn', hV'⟩ := hin' i _ _ hi (hvi ▸ h1) (hei ▸ h2)
  rw [hV, hV', expVectorLane_indep ops n n' _ _ (hnn _ h2) hn hn']

/-- C7, amended, at `i = 0`: the two runs agree on `(2, 3)` at index 0 and differ at index 1,
where the second run has a negative exponent. -/
theorem clampedExpVector_element_independent_witness :
    ∃ out out', clampedExpVector exact 4 32 expRegsZero [2, 2] [3, 0] [0, 0] 2 = .ok out ∧
      clampedExpVector exact 4 32 expRegsZero [2, 5] [3, -7] [1, 1] 2 = .ok out' ∧
      out[0]? = out'[0]? :=
  clampedExpVector_element_independent exact 4 (by decide) 32 (by decide) expRegsZero
    expRegsZero [2, 2] [2, 5] [3, 0] [3, -7] [0, 0] [1, 1] 2 (by decide) (by decide)
    (by decide) (by decide) (by decide) (by decide) (by simp [IsInt32]) (by simp [IsInt32])
    0 (by decide) rfl rfl (by simp)

/-- C8: in every chunk of `clampedExpVector`, whatever 32-bit integers the exponent lanes
hold, the `while` loop ends: there is an `n ≤ 32` such that the loop test
`_cmu418_cntbits(maskLoop)` is non-zero before each of the first `n` iterations and zero
after them, and the loop returns the state after `n` iterations as soon as it is allowed
`n` iterations. -/
theorem clampedExpVector_while_terminates {α : Type} (ops : FloatOps α) (W : Nat)
    (values : List α) (exponents : List Int) (N : Int) (i : Nat) (r : ExpRegs α)
    (hv : N.toNat ≤ values.length) (he : N.toNat ≤ exponents.length)
    (hexp : ∀ e, e ∈ exponents → IsInt32 e) :
    ∃ r1 n, clampedExpVectorEntry ops W values exponents N i r = .ok r1 ∧ n ≤ 32 ∧
      _cmu418_cntbits W ((clampedExpVectorBody ops W)^[n] r1).maskLoop = 0 ∧
      (∀ m, m < n → _cmu418_cntbits W ((clampedExpVectorBody ops W)^[m] r1).maskLoop ≠ 0) ∧
      ∀ fuel, n ≤ fuel →
        clampedExpVectorWhile ops W fuel r1 = .ok ((clampedExpVectorBody ops W)^[n] r1) := by
  obtain ⟨r1, h1, hmask, -, hinv, -, -, hexp1⟩ :=
    clampedExpVectorEntry_ok ops W values exponents N i r hv he
  have hB : ∀ k, k < W → r1.maskAll k = true → r1.exp k < 2 ^ 31 := by
    intro k hk hm
    rw [hmask] at hm
    have hN := ((init_ones_width W N i k).1 hm).2
    have hlt : i + k < exponents.length := by omega
    rw [hexp1 k _ hk hN (List.getElem?_eq_getElem hlt)]
    exact (hexp _ (List.getElem_mem hlt)).2
  obtain ⟨n, hn, hz, hnz⟩ := while_terminates ops W 31 r1 hinv hB
  exact ⟨r1, n, h1, by omega, hz, hnz,
    fun fuel hfu => clampedExpVectorWhile_ok ops W fuel n r1 hfu hz hnz⟩

/-- C8 at the first chunk of an input that holds the largest and the smallest `int`. -/
theorem clampedExpVector_while_terminates_witness :
    ∃ r1 n, clampedExpVectorEntry exact 4 [2, 3, 1 / 2, 5, 7]
        [2147483647, -2147483648, 3, -1, 2] 5 0 expRegsZero = .ok r1 ∧ n ≤ 32 ∧
      _cmu418_cntbits 4 ((clampedExpVectorBody exact 4)^[n] r1).maskLoop = 0 ∧
      (∀ m, m < n → _cmu418_cntbits 4 ((clampedExpVectorBody exact 4)^[m] r1).maskLoop ≠ 0) ∧
      ∀ fuel, n ≤ fuel →
        clampedExpVectorWhile exact 4 fuel r1 = .ok ((clampedExpVectorBody exact 4)^[n] r1) :=
  clampedExpVector_while_terminates exact 4 [2, 3, 1 / 2, 5, 7]
    [2147483647, -2147483648, 3, -1, 2] 5 0 expRegsZero (by decide) (by decide)
    (by simp [IsInt32])

/-- C9: for every `N` and every index `i < N` with `exponents[i] = 0`, `clampedExpVector`
(exact arithmetic) writes `output[i] = 1`, whatever the base and whatever the 32-bit
exponents of the other lanes; and in a chunk (starting at any index `i`, with any register
content `r0`) all of whose active lanes have exponent 0 the loop test fails at once, so
the `while` loop returns its entry state without executing its body, even with no
iteration allowed. -/
theorem clampedExpVector_exponent_zero (W : Nat) (hW : 0 < W) (whileFuel : Nat)
    (hf : 31 ≤ whileFuel) (r : ExpRegs ℚ) (values : List ℚ) (exponents : List Int)
    (output : List ℚ) (N : Int)
    (hv : N.toNat ≤ values.length) (he : N.toNat ≤ exponents.length)
    (ho : N.toNat ≤ output.length) (hexp : ∀ e, e ∈ exponents → IsInt32 e) :
    (∃ out', clampedExpVector exact W whileFuel r values exponents output N = .ok out' ∧
      ∀ i : Nat, (i : Int) < N → exponents[i]? = some 0 → out'[i]? = some 1) ∧
    (∀ (i : Nat) (r0 : ExpRegs ℚ),
      (∀ j e, i ≤ j → j < i + W → (j : Int) < N → exponents[j]? = some e → e = 0) →
      ∃ r1, clampedExpVectorEntry exact W values exponents N i r0 = .ok r1 ∧
        _cmu418_cntbits W r1.maskLoop = 0 ∧
        ∀ fuel, clampedExpVectorWhile exact W fuel r1 = .ok r1) := by
  constructor
  · obtain ⟨out', hrun, -, -, hin⟩ := clampedExpVector_ok exact W hW whileFuel r values
      exponents output N hv he ho 31 (fun e h => (hexp e h).2) hf
    refine ⟨out', hrun, ?_⟩
    intro i hi hei
    have hiv : i < values.length := by omega
    obtain ⟨n, -, hn, hout⟩ := hin i _ 0 hi (List.getElem?_eq_getElem hiv) hei
    rw [hout, expVectorLane_exact n _ 0 (le_refl _) hn]
    norm_num
  · intro i r0 hzero
    obtain ⟨r1, h1, hmask, -, hinv, -, -, hexp1⟩ :=
      clampedExpVectorEntry_ok exact W values exponents N i r0 hv he
    have hz : _cmu418_cntbits W r1.maskLoop = 0 := by
      rw [cntbits_loopInv W r1 hinv]
      intro k hk hm
      rw [hmask] at hm
      have hN := ((init_ones_width W N i k).1 hm).2
      have hlt : i + k < exponents.length := by omega
      have hek := hexp1 k _ hk hN (List.getElem?_eq_getElem hlt)
      have := hzero (i + k) _ (by omega) (by omega) hN (List.getElem?_eq_getElem hlt)
      omega
    refine ⟨r1, h1, hz, ?_⟩
    intro fuel
    exact clampedExpVectorWhile_ok exact W fuel 0 r1 (Nat.zero_le _) hz
      (fun m hm => absurd hm (Nat.not_lt_zero m))

/-- C9 at six elements with `W = 4`: exponent 0 next to the exponents 3 and 10 in the first
chunk, and a second chunk (at index 4) whose two active lanes both have exponent 0. -/
theorem clampedExpVector_exponent_zero_witness :
    (∃ out', clampedExpVector exact 4 32 expRegsZero [0, 5, 7, 3, 0, 9] [0, 0, 3, 10, 0, 0]
        [8, 8, 8, 8, 8, 8] 6 = .ok out' ∧
      ∀ i : Nat, (i : Int) < 6 → [(0 : Int), 0, 3, 10, 0, 0][i]? = some 0 →
        out'[i]? = some 1) ∧
    (∃ r1, clampedExpVectorEntry exact 4 [0, 5, 7, 3, 0, 9] [0, 0, 3, 10, 0, 0] 6 4 expRegsZero
        = .ok r1 ∧
      _cmu418_cntbits 4 r1.maskLoop = 0 ∧
      ∀ fuel, clampedExpVectorWhile exact 4 fuel r1 = .ok r1) :=
  have h := clampedExpVector_exponent_zero 4 (by decide) 32 (by decide) expRegsZero
    [0, 5, 7, 3, 0, 9] [0, 0, 3, 10, 0, 0] [8, 8, 8, 8, 8, 8] 6 (by decide) (by decide)
    (by decide) (by simp [IsInt32])
  ⟨h.1, h.2 4 expRegsZero (by
    intro j e h1 h2 h3 h4
    have h5 : j < 6 := by omega
    interval_cases j <;> simp_all)⟩

/-- C10 fails on the code for `maskClamp`: with `W = 4`, `N = 5`, `values = [1, 1, 1, 5, 1]`
and all exponents 1, lane 3 of `maskClamp` is set in the first chunk (`5 > 4.18`) and is not
cleared before the masked comparison of the second chunk, whose `maskAll` holds lane 0
only: at the clamping `_cmu418_vset_float` of the last chunk lane 3 of `maskClamp` is set
and lane 3 of `maskAll` is not. -/
theorem clampedExpVector_maskClamp_stale_lane :
    (clampedExpVectorRun exact 4 32 expRegsZero [1, 1, 1, 5, 1] [1, 1, 1, 1, 1]
        [0, 0, 0, 0, 0] 5).toOption.map (fun p => (p.1.maskAll 3, p.1.maskClamp 3))
      = some (false, true) := by
  decide!

/-! ## Further facts about the kernels -/

theorem shiftRight_nonpos_iff (e : Int) (n : Nat) : e >>> n ≤ 0 ↔ bitLength e ≤ n := by
  unfold bitLength
  by_cases he : e ≤ 0
  · rw [if_pos he]
    simp only [Nat.zero_le, iff_true]
    exact shiftRight_nonpos_of_lt e n (lt_of_le_of_lt he (by positivity))
  · rw [if_neg he]
    obtain ⟨m, rfl⟩ := Int.eq_ofNat_of_zero_le (by omega : 0 ≤ e)
    have hm : m ≠ 0 := by omega
    rw [Int.toNat_natCast, Nat.succ_le_iff, ← Nat.lt_pow_iff_log_lt (by decide) hm]
    constructor
    · intro h
      by_contra hlt
      have h2 : (2 : Int) ^ n ≤ (m : Int) := by exact_mod_cast not_lt.1 hlt
      rw [Int.shiftRight_eq_div_pow] at h
      have : (1 : Int) ≤ (m : Int) / ((2 ^ n : Nat) : Int) :=
        Int.le_ediv_of_mul_le (by positivity) (by push_cast; omega)
      omega
    · intro h
      exact shiftRight_nonpos_of_lt _ _ (by exact_mod_cast h)

/-- In the chunk at index `i` the loop test fails after `m` iterations exactly when `m` is
at least the largest bit length among the exponents of the active lanes. -/
theorem cntbits_iter_eq_zero_iff {α : Type} (ops : FloatOps α) (W : Nat)
    (exponents : List Int) (N : Int) (i : Nat) (r1 : ExpRegs α)
    (he : N.toNat ≤ exponents.length)
    (hmask : r1.maskAll = _cmu418_init_ones W (min (W : Int) (N - i)))
    (hinv : LoopInv W r1)
    (hexp1 : ∀ k e, k < W → ((i + k : Nat) : Int) < N → exponents[i + k]? = some e →
      r1.exp k = e) (m : Nat) :
    _cmu418_cntbits W ((clampedExpVectorBody ops W)^[m] r1).maskLoop = 0 ↔
      chunkMaxBitLength W exponents N i ≤ m := by
  rw [cntbits_loopInv W _ (iter_loopInv ops W m r1 hinv)]
  unfold chunkMaxBitLength
  rw [Finset.sup_le_iff]
  constructor
  · intro h k hk
    have hkW := Finset.mem_range.1 hk
    by_cases hN : ((i + k : Nat) : Int) < N
    · rw [if_pos hN]
      have hm : r1.maskAll k = true := by
        rw [hmask]; exact (init_ones_width W N i k).2 ⟨hkW, hN⟩
      have hlt : i + k < exponents.length := by omega
      have h1 := h k hkW (by rw [iter_maskAll]; exact hm)
      have h2 := congrArg (fun t => t.2.2) (iter_active ops W m r1 k hkW hm)
      simp only [] at h2
      rw [h2, expLaneStep_iter_exp, hexp1 k _ hkW hN (List.getElem?_eq_getElem hlt),
        shiftRight_nonpos_iff] at h1
      rw [List.getD_eq_getElem _ _ hlt]
      exact h1
    · rw [if_neg hN]
      exact Nat.zero_le _
  · intro h k hkW hm
    rw [iter_maskAll, hmask] at hm
    have hN := ((init_ones_width W N i k).1 hm).2
    have hlt : i + k < exponents.length := by omega
    have h1 := h k (Finset.mem_range.2 hkW)
    rw [if_pos hN, List.getD_eq_getElem _ _ hlt] at h1
    have hm' : r1.maskAll k = true := by
      rw [hmask]; exact hm
    have h2 := congrArg (fun t => t.2.2) (iter_active ops W m r1 k hkW hm')
    simp only [] at h2
    rw [h2, expLaneStep_iter_exp, hexp1 k _ hkW hN (List.getElem?_eq_getElem hlt),
      shiftRight_nonpos_iff]
    exact h1

theorem body_maskAnd_eq_spec {α : Type} (ops : FloatOps α) (W : Nat) (s : ExpRegs α)
    (hinv : LoopInv W s) (hnn : ∀ k, k < W → s.maskAll k = true → 0 ≤ s.exp k) :
    (clampedExpVectorBody ops W s).maskAnd = specBitSetMask s := by
  funext k
  rw [body_maskAnd, specBitSetMask, hinv k]
  by_cases hk : k < W
  · cases hm : s.maskAll k
    · simp
    · have h0 := hnn k hk hm
      by_cases hl : Int.land (s.exp k) 1 ≠ 0
      · have hpos : s.exp k > 0 := by
          rcases lt_or_eq_of_le h0 with h | h
          · exact h
          · exfalso
            apply hl
            rw [← h]
            exact int_land_zero_one
        simp [hk, hl, hpos]
      · simp [hk, hl]
  · simp [hk]

theorem arraySumVectorReduce_eq_iterate (W : Nat) :
    ∀ (d fuel : Nat) (v : __cmu418_vec ℚ), d ≤ fuel →
      arraySumVectorReduce exact W fuel (2 ^ d / 2) v = .ok ((reduceRound W)^[d] v) := by
  intro d
  induction d with
  | zero =>
    intro fuel v _
    cases fuel with
    | zero => simp [arraySumVectorReduce]
    | succ f => simp [arraySumVectorReduce]
  | succ d ih =>
    intro fuel v hfu
    obtain ⟨f, rfl⟩ : ∃ f, fuel = f + 1 := ⟨fuel - 1, by omega⟩
    have hwidth : 2 ^ (d + 1) / 2 = 2 ^ d := by
      rw [pow_succ]; omega
    have hne : 2 ^ d ≠ 0 := by positivity
    simp only [arraySumVectorReduce]
    rw [hwidth, if_pos hne, Function.iterate_succ_apply]
    exact ih f _ (by omega)

theorem halving_iterate (p m : Nat) : (fun w => w / 2)^[m] (2 ^ p / 2) = 2 ^ p / 2 ^ (m + 1) := by
  induction m with
  | zero => simp
  | succ m ih =>
    rw [Function.iterate_succ_apply', ih, Nat.div_div_eq_div_mul, ← pow_succ]

theorem two_pow_le_half (p : Nat) : p ≤ 2 ^ p / 2 := by
  rcases Nat.eq_zero_or_pos p with h0 | h0
  · rw [h0]; exact Nat.zero_le _
  · have h1 : p = (p - 1) + 1 := by omega
    have h2 : 2 ^ p / 2 = 2 ^ (p - 1) := by
      rw [h1, pow_succ]; simp
    have h3 := Nat.lt_two_pow (p - 1)
    omega

theorem storeLanes_congr {α : Type} (src src' : __cmu418_vec α) (mask : __cmu418_mask)
    (base n : Nat) (dest : List α) (h : ∀ k, k < n → src k = src' k) :
    storeLanes src mask base n dest = storeLanes src' mask base n dest := by
  induction n with
  | zero => rfl
  | succ n ih =>
    simp only [storeLanes]
    rw [ih (fun k hk => h k (by omega)), h n (by omega)]

theorem absVectorMaskIsNegative_apply {α : Type} (ops : FloatOps α) (W : Nat)
    (x : __cmu418_vec α) (k : Nat) :
    absVectorMaskIsNegative ops W x k = (decide (k < W) && ops.lt (x k) ops.zero) := by
  simp only [absVectorMaskIsNegative, _cmu418_vlt_float, maskedOp, _cmu418_vset]
  by_cases hk : k < W
  · simp [hk, init_ones_full]
  · simp [hk, init_ones_zero]

theorem absVectorMasks_partition {α : Type} (ops : FloatOps α) (W : Nat)
    (x : __cmu418_vec α) (k : Nat) :
    (absVectorMaskIsNegative ops W x k && absVectorMaskIsNotNegative ops W x k) = false ∧
      (absVectorMaskIsNegative ops W x k || absVectorMaskIsNotNegative ops W x k)
        = _cmu418_init_ones W W k := by
  simp only [absVectorMaskIsNotNegative, _cmu418_mask_not, absVectorMaskIsNegative_apply,
    init_ones_full]
  by_cases hk : k < W
  · cases ops.lt (x k) ops.zero <;> simp [hk]
  · simp [hk]

/-- The content of `output` after a chunk of `absVector`, in terms of the memory alone. -/
theorem absVectorBody_output {α : Type} (ops : FloatOps α) (W : Nat) (values : List α) (i : Nat)
    (r : AbsRegs α) (output : List α) :
    (absVectorBody ops W values i r output).map Prod.snd =
      if lanesInBounds W (_cmu418_init_ones W W) i values.length = true then
        if lanesInBounds W (_cmu418_init_ones W W) i output.length = true then
          .ok (storeLanes (fun k => absVectorLane ops (values[i + k]?.getD ops.zero))
            (_cmu418_init_ones W W) i W output)
        else .error .outOfBounds
      else .error .outOfBounds := by
  by_cases hb : lanesInBounds W (_cmu418_init_ones W W) i values.length = true
  · have hin : ∀ k, k < W → i + k < values.length := by
      intro k hk
      exact (lanesInBounds_iff _ _ _ _).1 hb k hk (by simp [init_ones_full, hk])
    rw [if_pos hb]
    simp only [absVectorBody]
    rw [vload_ok W r.x values i _ (fun k hk _ => hin k hk)]
    simp only []
    rw [vload_ok W _ values i _ (fun k hk _ => hin k hk)]
    simp only []
    by_cases hb3 : lanesInBounds W (_cmu418_init_ones W W) i output.length = true
    · rw [if_pos hb3]
      simp only [_cmu418_vstore]
      rw [if_pos hb3]
      simp only [Except.map]
      congr 1
      apply storeLanes_congr
      intro k hk
      have hc : ((k : Nat) : Int) < (W : Int) := by omega
      have hl := hin k hk
      by_cases hn : ops.lt values[i + k] ops.zero = true
      · simp [_cmu418_vsub_float, _cmu418_vlt_float, _cmu418_mask_not, maskedOp,
          _cmu418_vset, _cmu418_init_ones, hk, hc, hl, absVectorLane, hn]
      · simp [_cmu418_vsub_float, _cmu418_vlt_float, _cmu418_mask_not, maskedOp,
          _cmu418_vset, _cmu418_init_ones, hk, hc, hl, absVectorLane, hn]
    · rw [if_neg hb3]
      simp only [_cmu418_vstore]
      rw [if_neg hb3]
      rfl
  · rw [if_neg hb]
    simp only [absVectorBody, _cmu418_vload]
    rw [if_neg hb]
    rfl

/-- The content of `output` after a chunk of `absVector` does not depend on the registers
the chunk starts with. -/
theorem absVectorBody_indep {α : Type} (ops : FloatOps α) (W : Nat) (values : List α) (i : Nat)
    (r r' : AbsRegs α) (output : List α) :
    (absVectorBody ops W values i r output).map Prod.snd =
      (absVectorBody ops W values i r' output).map Prod.snd := by
  rw [absVectorBody_output, absVectorBody_output]

theorem absVectorLoop_indep {α : Type} (ops : FloatOps α) (W : Nat) (values : List α)
    (N : Int) :
    ∀ (fuel i : Nat) (r r' : AbsRegs α) (output : List α),
      (absVectorLoop ops W values N fuel i r output).map Prod.snd =
        (absVectorLoop ops W values N fuel i r' output).map Prod.snd := by
  intro fuel
  induction fuel with
  | zero =>
    intro i r r' output
    simp only [absVectorLoop]
    split <;> rfl
  | succ fuel ih =>
    intro i r r' output
    simp only [absVectorLoop]
    by_cases hi : (i : Int) < N
    · rw [if_pos hi, if_pos hi]
      have hb := absVectorBody_indep ops W values i r r' output
      cases h1 : absVectorBody ops W values i r output with
      | error e =>
        cases h2 : absVectorBody ops W values i r' output with
        | error e' =>
          rw [h1, h2] at hb
          simp only [Except.map] at hb
          simp only [Except.map]
          exact hb
        | ok p' =>
          rw [h1, h2] at hb
          simp [Except.map] at hb
      | ok p =>
        cases h2 : absVectorBody ops W values i r' output with
        | error e' =>
          rw [h1, h2] at hb
          simp [Except.map] at hb
        | ok p' =>
          rw [h1, h2] at hb
          simp only [Except.map, Except.ok.injEq] at hb
          obtain ⟨r1, out1⟩ := p
          obtain ⟨r1', out1'⟩ := p'
          simp only [] at hb
          subst hb
          exact ih (i + W) r1 r1' out1
    · rw [if_neg hi, if_neg hi]
      rfl

theorem expVectorLane_exact_le (n : Nat) (v : ℚ) (e : Int) :
    expVectorLane exact n v e ≤ 209 / 50 := by
  simp only [expVectorLane, exact]
  split
  · exact le_refl _
  · rename_i h
    simpa using h

/-! ## The claims, continued -/

/-- C11: in every chunk of `clampedExpVector` with non-negative exponents, at every iteration
of the `while` loop (after any number `m` of iterations) the mask `maskAnd` the code uses
for `result *= x`, `(exp & 1 != 0) AND maskAll`, equals the bit-set mask of the
specification, `(exp & 1 != 0) AND maskLoop`; and in every active lane the iteration
squares `x` and shifts `exp` right by one, while a lane whose exponent has reached 0 keeps
its `result` in all later iterations. -/
theorem clampedExpVector_maskAnd_eq_spec {α : Type} (ops : FloatOps α) (W : Nat)
    (values : List α) (exponents : List Int) (N : Int) (i : Nat) (r : ExpRegs α)
    (hv : N.toNat ≤ values.length) (he : N.toNat ≤ exponents.length)
    (hexp : ∀ e, e ∈ exponents → 0 ≤ e) :
    ∃ r1, clampedExpVectorEntry ops W values exponents N i r = .ok r1 ∧
      ∀ m : Nat,
        (clampedExpVectorBody ops W ((clampedExpVectorBody ops W)^[m] r1)).maskAnd =
          specBitSetMask ((clampedExpVectorBody ops W)^[m] r1) ∧
        ∀ k, k < W → r1.maskAll k = true →
          ((clampedExpVectorBody ops W)^[m + 1] r1).x k =
              ops.mul (((clampedExpVectorBody ops W)^[m] r1).x k)
                (((clampedExpVectorBody ops W)^[m] r1).x k) ∧
            ((clampedExpVectorBody ops W)^[m + 1] r1).exp k =
              ((clampedExpVectorBody ops W)^[m] r1).exp k >>> (1 : Nat) ∧
            (((clampedExpVectorBody ops W)^[m] r1).exp k = 0 →
              ∀ m', m ≤ m' → ((clampedExpVectorBody ops W)^[m'] r1).result k =
                ((clampedExpVectorBody ops W)^[m] r1).result k) := by
  obtain ⟨r1, h1, hmask, -, hinv, -, -, hexp1⟩ :=
    clampedExpVectorEntry_ok ops W values exponents N i r hv he
  have hnn1 : ∀ k, k < W → r1.maskAll k = true → 0 ≤ r1.exp k := by
    intro k hk hm
    rw [hmask] at hm
    have hN := ((init_ones_width W N i k).1 hm).2
    have hlt : i + k < exponents.length := by omega
    rw [hexp1 k _ hk hN (List.getElem?_eq_getElem hlt)]
    exact hexp _ (List.getElem_mem hlt)
  refine ⟨r1, h1, ?_⟩
  intro m
  constructor
  · apply body_maskAnd_eq_spec ops W _ (iter_loopInv ops W m r1 hinv)
    intro k hk hm
    rw [iter_maskAll] at hm
    have h2 := congrArg (fun t => t.2.2) (iter_active ops W m r1 k hk hm)
    simp only [] at h2
    rw [h2, expLaneStep_iter_exp]
    exact shiftRight_nonneg _ _ (hnn1 k hk hm)
  · intro k hk hm
    have hb := (body_active ops W ((clampedExpVectorBody ops W)^[m] r1) k hk
      (by rw [iter_maskAll]; exact hm)).1
    rw [Function.iterate_succ_apply']
    refine ⟨congrArg (fun t => t.2.1) hb, congrArg (fun t => t.2.2) hb, ?_⟩
    intro hz m' hm'
    obtain ⟨d, rfl⟩ := Nat.exists_eq_add_of_le hm'
    have hb' := iter_active ops W d ((clampedExpVectorBody ops W)^[m] r1) k hk
      (by rw [iter_maskAll]; exact hm)
    have h3 := congrArg (fun t => t.1) hb'
    simp only [] at h3
    rw [Nat.add_comm m d, Function.iterate_add_apply, h3, hz, expLaneStep_iter_zero]

/-- C11 at the first chunk of `exponents = [10, 0, 3, 1, 2]`, `N = 5`, `W = 4`. -/
theorem clampedExpVector_maskAnd_eq_spec_witness :
    ∃ r1, clampedExpVectorEntry exact 4 [2, 3, 1 / 2, 5, 7] [10, 0, 3, 1, 2] 5 0 expRegsZero
        = .ok r1 ∧
      ∀ m : Nat,
        (clampedExpVectorBody exact 4 ((clampedExpVectorBody exact 4)^[m] r1)).maskAnd =
          specBitSetMask ((clampedExpVectorBody exact 4)^[m] r1) ∧
        ∀ k, k < 4 → r1.maskAll k = true →
          ((clampedExpVectorBody exact 4)^[m + 1] r1).x k =
              exact.mul (((clampedExpVectorBody exact 4)^[m] r1).x k)
                (((clampedExpVectorBody exact 4)^[m] r1).x k) ∧
            ((clampedExpVectorBody exact 4)^[m + 1] r1).exp k =
              ((clampedExpVectorBody exact 4)^[m] r1).exp k >>> (1 : Nat) ∧
            (((clampedExpVectorBody exact 4)^[m] r1).exp k = 0 →
              ∀ m', m ≤ m' → ((clampedExpVectorBody exact 4)^[m'] r1).result k =
                ((clampedExpVectorBody exact 4)^[m] r1).result k) :=
  clampedExpVector_maskAnd_eq_spec exact 4 [2, 3, 1 / 2, 5, 7] [10, 0, 3, 1, 2] 5 0
    expRegsZero (by decide) (by decide) (by simp)

/-- C12: for every vector width `W = 2 ^ p` and every content `acc` of the accumulator, the
second loop of `arraySumVector` runs exactly `p = log2 W` rounds (`width` is non-zero at
the first `p` tests and zero at the next one), each round a horizontal add (every adjacent
lane pair replaced by its sum, in both lanes) followed by an interleave (even-indexed
lanes to the first half, odd-indexed lanes to the second half); after it every one of the
`W` lanes holds the sum of the `W` lanes of `acc` (exact addition), and the value read back
from element 0 of the stored register is that sum. -/
theorem arraySumVector_reduction (W p : Nat) (hW : W = 2 ^ p) (acc : __cmu418_vec ℚ)
    (scratch : List ℚ) (hs : scratch.length = W) :
    arraySumVectorReduce exact W (W / 2) (W / 2) acc = .ok ((reduceRound W)^[p] acc) ∧
      (∀ m, m < p → (fun w => w / 2)^[m] (W / 2) ≠ 0) ∧
      (fun w => w / 2)^[p] (W / 2) = 0 ∧
      (∀ (v : __cmu418_vec ℚ) k, k < W / 2 →
        _cmu418_hadd_float exact W v v (2 * k) = v (2 * k) + v (2 * k + 1) ∧
        _cmu418_hadd_float exact W v v (2 * k + 1) = v (2 * k) + v (2 * k + 1)) ∧
      (∀ (v : __cmu418_vec ℚ) k, k < W / 2 →
        _cmu418_interleave_float W v v k = v (2 * k) ∧
        _cmu418_interleave_float W v v (W / 2 + k) = v (2 * k + 1)) ∧
      (∀ k, k < W → ((reduceRound W)^[p] acc) k = ∑ t in Finset.range W, acc t) ∧
      (_cmu418_vstore W scratch 0 ((reduceRound W)^[p] acc) (_cmu418_init_ones W W)).map
        (fun output => output[0]?) = .ok (some (∑ t in Finset.range W, acc t)) := by
  have hWpos : 0 < W := by rw [hW]; positivity
  have hrun : arraySumVectorReduce exact W (W / 2) (W / 2) acc
      = .ok ((reduceRound W)^[p] acc) := by
    have := arraySumVectorReduce_eq_iterate W p (W / 2) acc (by rw [hW]; exact two_pow_le_half p)
    rw [← hW] at this
    exact this
  have hsum : ∀ k, k < W → ((reduceRound W)^[p] acc) k = ∑ t in Finset.range W, acc t := by
    obtain ⟨v', hred, hinv'⟩ := arraySumVectorReduce_ok W p hW acc p 0 (W / 2) acc
      (by omega) (reduceInv_zero W acc) (by rw [hW]; exact two_pow_le_half p)
    rw [← hW, hrun] at hred
    have hv' : (reduceRound W)^[p] acc = v' := Except.ok.inj hred
    intro k hk
    rw [hv']
    exact reduceInv_final W p hW acc v' hinv' k hk
  refine ⟨hrun, ?_, ?_, ?_, ?_, hsum, ?_⟩
  · intro m hm
    rw [hW, halving_iterate]
    have : 2 ^ (m + 1) ≤ 2 ^ p := Nat.pow_le_pow_right (by decide) (by omega)
    have hpos : 0 < 2 ^ (m + 1) := by positivity
    exact Nat.ne_of_gt (Nat.div_pos this hpos)
  · rw [hW, halving_iterate]
    apply Nat.div_eq_of_lt
    exact Nat.pow_lt_pow_right (by decide) (by omega)
  · intro v k hk
    simp only [_cmu418_hadd_float, exact]
    have e1 : 2 * k / 2 = k := by omega
    have e2 : (2 * k + 1) / 2 = k := by omega
    rw [if_pos (by omega), if_pos (by omega), e1, e2]
    exact ⟨rfl, rfl⟩
  · intro v k hk
    have hW2 : 2 * (W / 2) = W := by
      have hp : p ≠ 0 := by
        rintro rfl
        rw [hW] at hk
        simp at hk
      have : p = (p - 1) + 1 := by omega
      rw [hW, this, pow_succ]
      omega
    simp only [_cmu418_interleave_float]
    rw [if_pos (by omega), if_pos hk, if_pos (by omega), if_neg (by omega)]
    have e : W / 2 + k - W / 2 = k := by omega
    rw [e]
    exact ⟨rfl, rfl⟩
  · rw [vstore_ok W scratch 0 _ _ (fun k hk _ => by omega)]
    simp only [Except.map]
    rw [storeLanes_getElem?, if_pos ⟨le_refl _, by omega, by simp [init_ones_full, hWpos],
      by omega⟩]
    rw [show (0 : Nat) - 0 = 0 from rfl, hsum 0 hWpos]

/-- C12 at `W = 4` and the accumulator `[1, 2, 3, 4]`. -/
theorem arraySumVector_reduction_witness :
    arraySumVectorReduce exact 4 (4 / 2) (4 / 2) (fun k => (k : ℚ) + 1)
        = .ok ((reduceRound 4)^[2] (fun k => (k : ℚ) + 1)) ∧
      (∀ m, m < 2 → (fun w => w / 2)^[m] (4 / 2) ≠ 0) ∧
      (fun w => w / 2)^[2] (4 / 2) = 0 ∧
      (∀ (v : __cmu418_vec ℚ) k, k < 4 / 2 →
        _cmu418_hadd_float exact 4 v v (2 * k) = v (2 * k) + v (2 * k + 1) ∧
        _cmu418_hadd_float exact 4 v v (2 * k + 1) = v (2 * k) + v (2 * k + 1)) ∧
      (∀ (v : __cmu418_vec ℚ) k, k < 4 / 2 →
        _cmu418_interleave_float 4 v v k = v (2 * k) ∧
        _cmu418_interleave_float 4 v v (4 / 2 + k) = v (2 * k + 1)) ∧
      (∀ k, k < 4 → ((reduceRound 4)^[2] (fun k => (k : ℚ) + 1)) k
        = ∑ t in Finset.range 4, ((t : ℚ) + 1)) ∧
      (_cmu418_vstore 4 [0, 0, 0, 0] 0 ((reduceRound 4)^[2] (fun k => (k : ℚ) + 1))
          (_cmu418_init_ones 4 4)).map
        (fun output => output[0]?) = .ok (some (∑ t in Finset.range 4, ((t : ℚ) + 1))) :=
  arraySumVector_reduction 4 2 (by decide) (fun k => (k : ℚ) + 1) [0, 0, 0, 0] rfl

/-- C13: every chunk of `absVector` computes its two branch masks as
`absVectorMaskIsNegative` (then-branch, `result = 0 - x`) and `absVectorMaskIsNotNegative`
(else-branch, `result = values[..]`) of the loaded `x`; in every lane the two masks are
disjoint and their union is `maskAll`, the set of lanes stored to `output`; and
`absVector` returns the same result (the same output, or the same fault) for every two
initial contents `r`, `r'` of its registers. -/
theorem absVector_masks_partition_register_independent {α : Type} (ops : FloatOps α) (W : Nat)
    (values : List α) :
    (∀ (i : Nat) (r : AbsRegs α) (output : List α),
      absVectorBody ops W values i r output =
        match _cmu418_vload W r.x values i (_cmu418_init_ones W W) with
        | .error e => .error e
        | .ok x =>
          match _cmu418_vload W
              (_cmu418_vsub_float ops W r.result (_cmu418_vset ops.zero) x
                (absVectorMaskIsNegative ops W x))
              values i (absVectorMaskIsNotNegative ops W x) with
          | .error e => .error e
          | .ok result =>
            match _cmu418_vstore W output i result (_cmu418_init_ones W W) with
            | .error e => .error e
            | .ok output => .ok (⟨x, result⟩, output)) ∧
    (∀ (x : __cmu418_vec α) (k : Nat),
      (absVectorMaskIsNegative ops W x k && absVectorMaskIsNotNegative ops W x k) = false ∧
      (absVectorMaskIsNegative ops W x k || absVectorMaskIsNotNegative ops W x k)
        = _cmu418_init_ones W W k) ∧
    (∀ (r r' : AbsRegs α) (output : List α) (N : Int),
      absVector ops W r values output N = absVector ops W r' values output N) :=
  ⟨fun _ _ _ => rfl, absVectorMasks_partition ops W,
    fun r r' output N => absVectorLoop_indep ops W values N N.toNat 0 r r' output⟩

/-- C14: in every chunk of `clampedExpVector` (chunk at index `i`, any register content, any
bases) the `while` loop runs exactly `chunkMaxBitLength W exponents N i` iterations, the
largest bit length among the exponents of the active lanes: the loop test is non-zero
before each of these iterations and zero after them, and the loop returns the state after
that many iterations as soon as it is allowed that many. -/
theorem clampedExpVector_while_iterations {α : Type} (ops : FloatOps α) (W : Nat)
    (values : List α) (exponents : List Int) (N : Int) (i : Nat) (r : ExpRegs α)
    (hv : N.toNat ≤ values.length) (he : N.toNat ≤ exponents.length) :
    ∃ r1, clampedExpVectorEntry ops W values exponents N i r = .ok r1 ∧
      _cmu418_cntbits W ((clampedExpVectorBody ops W)^[chunkMaxBitLength W exponents N i]
        r1).maskLoop = 0 ∧
      (∀ m, m < chunkMaxBitLength W exponents N i →
        _cmu418_cntbits W ((clampedExpVectorBody ops W)^[m] r1).maskLoop ≠ 0) ∧
      ∀ fuel, chunkMaxBitLength W exponents N i ≤ fuel →
        clampedExpVectorWhile ops W fuel r1 =
          .ok ((clampedExpVectorBody ops W)^[chunkMaxBitLength W exponents N i] r1) := by
  obtain ⟨r1, h1, hmask, -, hinv, -, -, hexp1⟩ :=
    clampedExpVectorEntry_ok ops W values exponents N i r hv he
  have key := cntbits_iter_eq_zero_iff ops W exponents N i r1 he hmask hinv hexp1
  have hz := (key (chunkMaxBitLength W exponents N i)).2 (le_refl _)
  have hnz : ∀ m, m < chunkMaxBitLength W exponents N i →
      _cmu418_cntbits W ((clampedExpVectorBody ops W)^[m] r1).maskLoop ≠ 0 := by
    intro m hm h0
    have := (key m).1 h0
    omega
  exact ⟨r1, h1, hz, hnz, fun fuel hfu => clampedExpVectorWhile_ok ops W fuel _ r1 hfu hz hnz⟩

/-- C14 at the first chunk of `exponents = [31, 3, 0, 1, 10]`, `N = 5`, `W = 4`. -/
theorem clampedExpVector_while_iterations_witness :
    ∃ r1, clampedExpVectorEntry exact 4 [2, 3, 1 / 2, 5, 7] [31, 3, 0, 1, 10] 5 0 expRegsZero
        = .ok r1 ∧
      _cmu418_cntbits 4 ((clampedExpVectorBody exact 4)^[chunkMaxBitLength 4 [31, 3, 0, 1, 10] 5 0]
        r1).maskLoop = 0 ∧
      (∀ m, m < chunkMaxBitLength 4 [31, 3, 0, 1, 10] 5 0 →
        _cmu418_cntbits 4 ((clampedExpVectorBody exact 4)^[m] r1).maskLoop ≠ 0) ∧
      ∀ fuel, chunkMaxBitLength 4 [31, 3, 0, 1, 10] 5 0 ≤ fuel →
        clampedExpVectorWhile exact 4 fuel r1 =
          .ok ((clampedExpVectorBody exact 4)^[chunkMaxBitLength 4 [31, 3, 0, 1, 10] 5 0] r1) :=
  clampedExpVector_while_iterations exact 4 [2, 3, 1 / 2, 5, 7] [31, 3, 0, 1, 10] 5 0
    expRegsZero (by decide) (by decide)

/-- The examples of C14: a chunk whose largest exponent is 31 runs 5 iterations, one whose
largest exponent is 10 runs 4; the bit length of 0 is 0. -/
theorem chunkMaxBitLength_scenarios :
    chunkMaxBitLength 4 [31, 3, 0, 1, 10] 5 0 = 5 ∧ chunkMaxBitLength 4 [31, 3, 0, 1, 10] 5 4 = 4
      ∧ bitLength 0 = 0 := by
  decide!

/-- C15: for every `N ≥ 0` that is a multiple of `W` and all buffers of at least `N` elements
(in particular of exactly `N`), `absVector` returns normally, with the same content of
`output` as `absSerial`, and leaves every element of `output` at an index `≥ N` unchanged;
for every interpretation of the float operations in which `0 - v` is `-v` for negative
`v`. -/
theorem absVector_eq_serial_of_dvd {α : Type} (ops : FloatOps α) (W : Nat) (hW : 0 < W)
    (hneg : ∀ v, ops.lt v ops.zero = true → ops.sub ops.zero v = ops.neg v)
    (r : AbsRegs α) (values output : List α) (N : Int) (hN : 0 ≤ N) (hd : (W : Int) ∣ N)
    (hv : N.toNat ≤ values.length) (ho : N.toNat ≤ output.length) :
    ∃ out', absVector ops W r values output N = .ok out' ∧
      absSerial ops values output N = .ok out' ∧
      out'.length = output.length ∧
      ∀ j : Nat, N ≤ (j : Int) → out'[j]? = output[j]? := by
  have hC := chunkCount_of_dvd W hW N hN hd
  have hNn : N.toNat = W * chunkCount W N := by omega
  obtain ⟨outV, hrunV, hlV, hgV⟩ := absVector_ok ops W hW r values output N (by omega)
    (by omega)
  obtain ⟨outS, hrunS, hlS, hgS⟩ := absSerialLoop_ok ops values N hv N.toNat 0 output
    (by omega) ho
  have heq : outV = outS := by
    apply List.ext_getElem?
    intro j
    rw [hgV, hgS]
    by_cases hj : (j : Int) < N
    · have hjv : j < values.length := by omega
      rw [if_pos (by omega), if_pos ⟨Nat.zero_le _, hj⟩, List.getElem?_eq_getElem hjv]
      simp only [Option.map, absVectorLane, absSerialElem]
      by_cases hl : ops.lt values[j] ops.zero = true
      · rw [if_pos hl, if_pos hl, hneg _ hl]
      · rw [if_neg hl, if_neg hl]
    · rw [if_neg (by omega), if_neg (fun h => hj h.2)]
  refine ⟨outV, hrunV, heq ▸ hrunS, hlV, ?_⟩
  intro j hj
  rw [hgV, if_neg (by omega)]

/-- C15 at `N = 8`, `W = 4`, exact arithmetic, with an output buffer of nine elements. -/
theorem absVector_eq_serial_of_dvd_witness :
    ∃ out', absVector exact 4 absRegsZero [-3, 2, 0, -1 / 2, 5, -6, 7, -8]
        [0, 0, 0, 0, 0, 0, 0, 0, 9] 8 = .ok out' ∧
      absSerial exact [-3, 2, 0, -1 / 2, 5, -6, 7, -8] [0, 0, 0, 0, 0, 0, 0, 0, 9] 8 = .ok out' ∧
      out'.length = [(0 : ℚ), 0, 0, 0, 0, 0, 0, 0, 9].length ∧
      ∀ j : Nat, (8 : Int) ≤ (j : Int) → out'[j]? = [(0 : ℚ), 0, 0, 0, 0, 0, 0, 0, 9][j]? :=
  absVector_eq_serial_of_dvd exact 4 (by decide) (by intro v _; simp [exact]) absRegsZero
    [-3, 2, 0, -1 / 2, 5, -6, 7, -8] [0, 0, 0, 0, 0, 0, 0, 0, 9] 8 (by decide) ⟨2, by decide⟩
    (by decide) (by decide)

/-- C16: for every `N` and every input (any bases, any 32-bit exponents, negative ones
included), every element `output[i]`, `i < N`, after `clampedExpVector` is `≤ 4.18` (exact
arithmetic). -/
theorem clampedExpVector_le_bound (W : Nat) (hW : 0 < W) (whileFuel : Nat)
    (hf : 31 ≤ whileFuel) (r : ExpRegs ℚ) (values : List ℚ) (exponents : List Int)
    (output : List ℚ) (N : Int)
    (hv : N.toNat ≤ values.length) (he : N.toNat ≤ exponents.length)
    (ho : N.toNat ≤ output.length) (hexp : ∀ e, e ∈ exponents → IsInt32 e) :
    ∃ out', clampedExpVector exact W whileFuel r values exponents output N = .ok out' ∧
      ∀ (i : Nat) (y : ℚ), (i : Int) < N → out'[i]? = some y → y ≤ 209 / 50 := by
  obtain ⟨out', hrun, -, -, hin⟩ := clampedExpVector_ok exact W hW whileFuel r values exponents
    output N hv he ho 31 (fun e h => (hexp e h).2) hf
  refine ⟨out', hrun, ?_⟩
  intro i y hi hy
  have hiv : i < values.length := by omega
  have hie : i < exponents.length := by omega
  obtain ⟨n, -, -, hout⟩ := hin i _ _ hi (List.getElem?_eq_getElem hiv)
    (List.getElem?_eq_getElem hie)
  rw [hout] at hy
  rw [← Option.some.inj hy]
  exact expVectorLane_exact_le n _ _

/-- C16 at five elements that include the smallest and the largest `int` as exponents. -/
theorem clampedExpVector_le_bound_witness :
    ∃ out', clampedExpVector exact 4 32 expRegsZero [2, 3, -5, 5, 7]
        [10, -2147483648, 3, -1, 2147483647] [0, 0, 0, 0, 0] 5 = .ok out' ∧
      ∀ (i : Nat) (y : ℚ), (i : Int) < 5 → out'[i]? = some y → y ≤ 209 / 50 :=
  clampedExpVector_le_bound 4 (by decide) 32 (by decide) expRegsZero [2, 3, -5, 5, 7]
    [10, -2147483648, 3, -1, 2147483647] [0, 0, 0, 0, 0] 5 (by decide) (by decide) (by decide)
    (by simp [IsInt32])

/-- C17: for every `N ≤ 0` the chunk loops of `absVector`, `clampedExpVector` and
`arraySumVector` return at their first test, whatever fuel they have, with registers and
memory untouched; `absVector` and `clampedExpVector` return `output` unchanged, for any
`values` and `exponents` (also empty ones, so nothing is read), and `arraySumVector`
(`W = 2 ^ p`, exact addition) returns 0. -/
theorem kernels_nonpositive_N {α : Type} (ops : FloatOps α) (W : Nat) (whileFuel : Nat)
    (ra : AbsRegs α) (re : ExpRegs α) (values : List α) (exponents : List Int)
    (output : List α) (N : Int) (hN : N ≤ 0)
    (p : Nat) (temp : __cmu418_vec ℚ) (scratch summands : List ℚ)
    (hs : scratch.length = 2 ^ p) :
    (∀ fuel, absVectorLoop ops W values N fuel 0 ra output = .ok (ra, output)) ∧
      absVector ops W ra values output N = .ok output ∧
      (∀ fuel, clampedExpVectorLoop ops W whileFuel values exponents N fuel 0 re output
        = .ok (re, output)) ∧
      clampedExpVector ops W whileFuel re values exponents output N = .ok output ∧
      (∀ fuel, arraySumVectorLoop exact (2 ^ p) summands N fuel 0 temp (_cmu418_vset exact.zero)
        = .ok (temp, _cmu418_vset exact.zero)) ∧
      arraySumVector exact (2 ^ p) temp scratch summands N = .ok 0 := by
  have hc : ¬ (((0 : Nat) : Int) < N) := by omega
  have h1 : ∀ fuel, absVectorLoop ops W values N fuel 0 ra output = .ok (ra, output) := by
    intro fuel
    cases fuel <;> simp only [absVectorLoop] <;> rw [if_neg hc]
  have h2 : ∀ fuel, clampedExpVectorLoop ops W whileFuel values exponents N fuel 0 re output
      = .ok (re, output) := by
    intro fuel
    cases fuel <;> simp only [clampedExpVectorLoop] <;> rw [if_neg hc]
  have h3 : ∀ fuel, arraySumVectorLoop exact (2 ^ p) summands N fuel 0 temp
      (_cmu418_vset exact.zero) = .ok (temp, _cmu418_vset exact.zero) := by
    intro fuel
    cases fuel <;> simp only [arraySumVectorLoop] <;> rw [if_neg hc]
  refine ⟨h1, ?_, h2, ?_, h3, ?_⟩
  · unfold absVector
    rw [h1]
    rfl
  · unfold clampedExpVector clampedExpVectorRun
    rw [h2]
    rfl
  · have hWpos : 0 < 2 ^ p := by positivity
    obtain ⟨v', hred, hinv'⟩ := arraySumVectorReduce_ok (2 ^ p) p rfl (_cmu418_vset exact.zero)
      p 0 (2 ^ p / 2) (_cmu418_vset exact.zero) (by omega)
      (reduceInv_zero (2 ^ p) (_cmu418_vset exact.zero)) (two_pow_le_half p)
    unfold arraySumVector
    simp only []
    rw [h3]
    simp only []
    rw [hred]
    simp only []
    rw [vstore_ok (2 ^ p) scratch 0 v' _ (fun k hk _ => by omega)]
    simp only []
    have hm0 : _cmu418_init_ones (2 ^ p) ((2 ^ p : Nat) : Int) 0 = true := by
      rw [init_ones_full]
      exact decide_eq_true hWpos
    rw [storeLanes_getElem?, if_pos ⟨le_refl _, by omega, hm0, by omega⟩]
    simp only []
    rw [show (0 : Nat) - 0 = 0 from rfl,
      reduceInv_final (2 ^ p) p rfl (_cmu418_vset exact.zero) v' hinv' 0 hWpos]
    simp [_cmu418_vset, exact]

/-- C17 at `N = -3` with empty input arrays. -/
theorem kernels_nonpositive_N_witness :
    (∀ fuel, absVectorLoop exact 4 [] (-3) fuel 0 absRegsZero [9, 9] = .ok (absRegsZero, [9, 9])) ∧
      absVector exact 4 absRegsZero [] [9, 9] (-3) = .ok [9, 9] ∧
      (∀ fuel, clampedExpVectorLoop exact 4 0 [] [] (-3) fuel 0 expRegsZero [9, 9]
        = .ok (expRegsZero, [9, 9])) ∧
      clampedExpVector exact 4 0 expRegsZero [] [] [9, 9] (-3) = .ok [9, 9] ∧
      (∀ fuel, arraySumVectorLoop exact (2 ^ 2) [] (-3) fuel 0 (fun _ => 7)
          (_cmu418_vset exact.zero) = .ok (fun _ => 7, _cmu418_vset exact.zero)) ∧
      arraySumVector exact (2 ^ 2) (fun _ => 7) [5, 5, 5, 5] [] (-3) = .ok 0 :=
  kernels_nonpositive_N exact 4 0 absRegsZero expRegsZero [] [] [9, 9] (-3) (by decide)
    2 (fun _ => 7) [5, 5, 5, 5] [] rfl

end Vecintrin
